import Mathlib

/-!
Shallow embedding of the Locax localization-sync engine ("locax-ai").

The definitions below are translated from the TypeScript source:
* `src/lib/csv-parser.ts`   — delimited-text decode/encode (`parseSourceCSV`,
  `parseCSVLine`, `serializeSourceCSV`, `ensureLanguageColumns`, ...);
* `src/lib/source-file-parser.ts` — spreadsheet writer row-map handling
  (`normalizeWorkbookRowMap`, the `writeXlsxSource` row-assignment loop);
* `src/lib/git-utils.ts`    — sidecar metadata load/serialize
  (`loadMetaData`, `serializeMetaRows`, `buildFallbackMap`);
* `src/components/locax/WelcomeScreen.tsx` — `mergeRowsWithMeta`;
* `src/components/locax/CategoryTree.tsx`  — `handleAddKey`;
* the project Index page — `handleManualSave`, `updateRow`, `onAddKey`.

JavaScript strings are modelled as `String` / `List Char`, numbers that hold
file timestamps or row indices as `Nat`, objects used as string-keyed maps as
association lists with JS-object update semantics (update-in-place when the
key exists, append otherwise), and `undefined` as `Option.none`.  Filesystem
effects are modelled by an explicit environment record plus a trace of write
events.
-/

namespace Locax

/-! ## Association lists with JS-object semantics -/

/-- Lookup in a string-keyed JS object modelled as an association list. -/
def alookup {α : Type} (l : List (String × α)) (k : String) : Option α :=
  (l.find? (fun p => p.1 == k)).map (fun p => p.2)

/-- JS object assignment `o[k] = v`: update in place when the key exists,
append at the end otherwise (JS string keys keep insertion order). -/
def aupsert {α : Type} (l : List (String × α)) (k : String) (v : α) :
    List (String × α) :=
  if (l.find? (fun p => p.1 == k)).isSome then
    l.map (fun p => if p.1 == k then (k, v) else p)
  else l ++ [(k, v)]

/-- JS `delete o[k]`. -/
def aremove {α : Type} (l : List (String × α)) (k : String) : List (String × α) :=
  l.filter (fun p => !(p.1 == k))

/-! ## Character-level helpers shared by the CSV code -/

/-- Lowercasing, modelling JS `String.prototype.toLowerCase` on the ASCII
range used by the reserved header labels. -/
def lowerStr (s : String) : String := String.mk (s.data.map Char.toLower)

/-- Model of JS `String.prototype.trim` (the source files only ever trim
ASCII whitespace). -/
def csvTrim (l : List Char) : List Char :=
  ((l.dropWhile Char.isWhitespace).reverse.dropWhile Char.isWhitespace).reverse

/-- Strip a single leading byte-order mark: `value.replace(/^﻿/, '')`
in `csv-parser.ts`. -/
def stripBom (l : List Char) : List Char :=
  match l with
  | [] => []
  | c :: rest => if c = '﻿' then rest else c :: rest

/-- Splitting on `/\r?\n/` as done by `parseSourceCSV`: each `\n` or `\r\n`
separates lines; a lone `\r` is ordinary content. -/
def splitLines : List Char → List (List Char)
  | [] => [[]]
  | '\n' :: rest => [] :: splitLines rest
  | '\r' :: '\n' :: rest => [] :: splitLines rest
  | c :: rest => (splitLines rest).modifyHead (fun l => c :: l)

/-- Drop a single trailing `\r`: `rawLine.replace(/\r$/, "")` in
`parseCSVLine`. -/
def stripTrailingCR (l : List Char) : List Char :=
  match l.getLast? with
  | some c => if c = '\r' then l.dropLast else l
  | none => l

/-- Character loop of `parseCSVLine` (`csv-parser.ts`): `cur` is the current
field, `inQ` the `inQuotes` flag; each completed field is `trim`med. -/
def pclAux : List Char → Bool → List Char → List (List Char)
  | [], _, cur => [csvTrim cur]
  | '"' :: '"' :: rest, true, cur => pclAux rest true (cur ++ ['"'])
  | '"' :: rest, true, cur => pclAux rest false cur
  | '"' :: rest, false, cur => pclAux rest true cur
  | ',' :: rest, false, cur => csvTrim cur :: pclAux rest false []
  | c :: rest, inQ, cur => pclAux rest inQ (cur ++ [c])

/-- `parseCSVLine` from `csv-parser.ts`: strip one trailing `\r`, then run the
quote-aware splitter. -/
def parseCSVLine (raw : List Char) : List String :=
  (pclAux (stripTrailingCR raw) false []).map String.mk

/-- JS `\w` character class (`[A-Za-z0-9_]`). -/
def isWordChar (c : Char) : Bool := c.isAlphanum || c == '_'

/-- First match of the regex `/\[(\w+)\]/` on a header: the leftmost `[` whose
maximal run of word characters is non-empty and immediately followed by `]`;
returns the captured run. -/
def findBracketCode : List Char → Option (List Char)
  | [] => none
  | c :: rest =>
    if c = '[' then
      if (rest.takeWhile isWordChar) ≠ [] ∧
          (rest.drop (rest.takeWhile isWordChar).length).head? = some ']' then
        some (rest.takeWhile isWordChar)
      else findBracketCode rest
    else findBracketCode rest

/-- Double every quote, the `field.replace(/"/g, '""')` step of
`escapeCSVField`. -/
def escQuotes : List Char → List Char
  | [] => []
  | c :: rest => if c = '"' then '"' :: '"' :: escQuotes rest else c :: escQuotes rest

/-- `escapeCSVField` from `csv-parser.ts` (the identical private `escape` in
`git-utils.ts` is modelled by the same function): quote a field only when it
contains a delimiter, a quote or a newline. -/
def escapeCSVField (f : String) : String :=
  if f = "" then ""
  else if f.data.any (fun c => c = ',' || c = '"' || c = '\n') then
    String.mk ('"' :: escQuotes f.data ++ ['"'])
  else f

/-- Substring test used to model `new RegExp("\\[" + escapeRegex(lang) + "\\]", "i").test(h)`
in `ensureLanguageColumns`: a case-insensitive search for the literal text
`[lang]`. -/
def isSubstring (pat : List Char) (s : List Char) : Bool :=
  match s with
  | [] => pat.isEmpty
  | _ :: rest => pat.isPrefixOf s || isSubstring pat rest

/-- Case-insensitive `[lang]` pattern test on a header. -/
def bracketTest (lang : String) (h : String) : Bool :=
  isSubstring (('[' :: lang.data ++ [']']).map Char.toLower) (h.data.map Char.toLower)

/-! ## Data model (`src/types/locax.ts`) -/

/-- `ColumnMetadata` from `types/locax.ts`. -/
structure ColumnMetadata where
  index : Nat
  header : String
deriving Repr, DecidableEq

/-- `LocalizationRow` from `types/locax.ts`.  `description` and `context` are
declared non-optional in the TypeScript interface and every constructor in
the code supplies them, so they are plain strings here; the optional fields
are `Option`s. -/
structure LocalizationRow where
  key : String
  description : String
  context : String
  translations : List (String × String)
  screenshot : Option String := none
  linkedKeys : Option (List String) := none
  notes : Option String := none
  type : Option String := none
deriving Repr, DecidableEq

/-- `SourceCSVParseResult` from `csv-parser.ts`. -/
structure SourceCSVParseResult where
  languages : List String
  rows : List LocalizationRow
  header : List String
  languageColumnMap : List (String × ColumnMetadata)
  descColumn : Option ColumnMetadata
  typeColumn : Option ColumnMetadata
  rowMap : List (String × Nat)
deriving Repr, DecidableEq

/-! ## `parseSourceCSV` (`csv-parser.ts`) -/

/-- Accumulator of the language-column scan in `parseSourceCSV`
(`languages`, `languageColumnMap`, `languageIndices`). -/
structure LangAcc where
  languages : List String
  languageColumnMap : List (String × ColumnMetadata)
  languageIndices : List (String × Nat)
deriving Repr, DecidableEq

/-- One step of the `header.forEach` loop of `parseSourceCSV` that collects
language columns from bracketed short-codes. -/
def langScanStep (keyIndex englishIndex : Nat) (descIdx? typeIdx? : Option Nat)
    (acc : LangAcc) (ih : Nat × String) : LangAcc :=
  if ih.1 = keyIndex ∨ descIdx? = some ih.1 ∨ typeIdx? = some ih.1 ∨ ih.1 = englishIndex then
    acc
  else
    match findBracketCode ih.2.data with
    | some code =>
      { languages := acc.languages ++ [String.mk (code.map Char.toLower)]
        languageColumnMap :=
          aupsert acc.languageColumnMap (String.mk (code.map Char.toLower)) ⟨ih.1, ih.2⟩
        languageIndices := acc.languageIndices ++ [(String.mk (code.map Char.toLower), ih.1)] }
    | none => acc

/-- Body of the data-row loop of `parseSourceCSV` for one line: skip blank
lines, lines with fewer than two fields and lines with an empty key;
otherwise build the `LocalizationRow` (`context` mirrors `description`,
an empty Type cell defaults to `"Text"`). -/
def parseDataLine (keyIndex : Nat) (descIdx? typeIdx? : Option Nat)
    (langIdx : List (String × Nat)) (line : List Char) : Option LocalizationRow :=
  if csvTrim line = [] then none
  else
    let values := parseCSVLine line
    if values.length < 2 then none
    else if values.getD keyIndex "" = "" then none
    else
      some {
        key := values.getD keyIndex ""
        description := match descIdx? with
          | some d => values.getD d ""
          | none => ""
        context := match descIdx? with
          | some d => values.getD d ""
          | none => ""
        type := some (match typeIdx? with
          | some t => if values.getD t "" = "" then "Text" else values.getD t ""
          | none => "Text")
        translations :=
          langIdx.foldl (fun m ci => aupsert m ci.1 (values.getD ci.2 "")) [] }

/-- `parseSourceCSV` from `csv-parser.ts`.  The JS single loop that pushes
into `rows` and assigns into `rowMap` is split into a `filterMap` (rows, in
order) and a fold (row map, same per-line decision), which is extensionally
the same computation; `rowMap[key] = i + 1` with `i` the 1-based line index
of the data line. -/
def parseSourceCSV (csvContent : String) : Except String SourceCSVParseResult :=
  let lines := splitLines (csvTrim (stripBom csvContent.data))
  match lines with
  | [] => Except.error "CSV must have at least a header row and one data row"
  | [_] => Except.error "CSV must have at least a header row and one data row"
  | headerLine :: dataLines =>
    let header := parseCSVLine headerLine
    let descIdx? := header.findIdx? (fun h => lowerStr h == "desc")
    let typeIdx? := header.findIdx? (fun h => lowerStr h == "type")
    match header.findIdx? (fun h => lowerStr h == "key"),
        header.findIdx? (fun h => lowerStr h == "english") with
    | some keyIndex, some englishIndex =>
      let acc := header.enum.foldl (langScanStep keyIndex englishIndex descIdx? typeIdx?)
        { languages := ["en"]
          languageColumnMap := [("en", ⟨englishIndex, header.getD englishIndex ""⟩)]
          languageIndices := [("en", englishIndex)] }
      Except.ok {
        languages := acc.languages
        rows := dataLines.filterMap (parseDataLine keyIndex descIdx? typeIdx? acc.languageIndices)
        header := header
        languageColumnMap := acc.languageColumnMap
        descColumn := descIdx?.map (fun d => ⟨d, header.getD d ""⟩)
        typeColumn := typeIdx?.map (fun t => ⟨t, header.getD t ""⟩)
        rowMap := (dataLines.enumFrom 1).foldl
          (fun m il =>
            match parseDataLine keyIndex descIdx? typeIdx? acc.languageIndices il.2 with
            | some row => aupsert m row.key (il.1 + 1)
            | none => m) [] }
    | _, _ => Except.error "CSV must have Key and English columns"

/-! ## `serializeSourceCSV` (`csv-parser.ts`) -/

/-- `DEFAULT_LANGUAGE_HEADERS[code] || code + " [" + code + "]"` from
`csv-parser.ts`. -/
def getLanguageHeaderLabel (code : String) : String :=
  if code = "en" then "English"
  else if code = "de" then "Deutsch [de]"
  else if code = "fr" then "Français [fr]"
  else if code = "es" then "Español [es]"
  else if code = "ja" then "日本語 [ja]"
  else if code = "ko" then "한국어 [ko]"
  else code ++ " [" ++ code ++ "]"

/-- `ensureKeyColumn`: find a case-insensitive `key` header, else `unshift`
a new `Key` column at position 0. -/
def ensureKeyColumn (header : List String) : Nat × List String :=
  match header.findIdx? (fun h => lowerStr h == "key") with
  | some i => (i, header)
  | none => (0, "Key" :: header)

/-- `ensureColumn`: exact match on the stored metadata header, else
case-insensitive match on the fallback label, else append a new column. -/
def ensureColumn (header : List String) (metadata : Option ColumnMetadata)
    (fallbackHeader : String) : ColumnMetadata × List String :=
  match metadata.bind (fun m => header.findIdx? (fun h => h == m.header)) with
  | some i => (⟨i, header.getD i ""⟩, header)
  | none =>
    match header.findIdx? (fun h => lowerStr h == lowerStr fallbackHeader) with
    | some i => (⟨i, header.getD i ""⟩, header)
    | none =>
      ((⟨header.length, (metadata.map (fun m => m.header)).getD fallbackHeader⟩ : ColumnMetadata),
        header ++ [(metadata.map (fun m => m.header)).getD fallbackHeader])

/-- One step of `ensureLanguageColumns`: exact match on the preferred stored
header, else a case-insensitive `[lang]` pattern search, else append one new
column labelled from `DEFAULT_LANGUAGE_HEADERS`/the code. -/
def ensureLangStep (columnMap : Option (List (String × ColumnMetadata)))
    (acc : List String × List (String × ColumnMetadata)) (lang : String) :
    List String × List (String × ColumnMetadata) :=
  match (columnMap.bind (fun m => alookup m lang)).bind
      (fun p => acc.1.findIdx? (fun h => h == p.header)) with
  | some i => (acc.1, aupsert acc.2 lang ⟨i, acc.1.getD i ""⟩)
  | none =>
    match acc.1.findIdx? (fun h => bracketTest lang h) with
    | some i => (acc.1, aupsert acc.2 lang ⟨i, acc.1.getD i ""⟩)
    | none =>
      (acc.1 ++ [((columnMap.bind (fun m => alookup m lang)).map
          (fun p => p.header)).getD (getLanguageHeaderLabel lang)],
        aupsert acc.2 lang
          ⟨acc.1.length, ((columnMap.bind (fun m => alookup m lang)).map
            (fun p => p.header)).getD (getLanguageHeaderLabel lang)⟩)

/-- `ensureLanguageColumns` from `csv-parser.ts`, with the mutated `header`
array threaded through the fold. -/
def ensureLanguageColumns (header : List String) (languages : List String)
    (columnMap : Option (List (String × ColumnMetadata))) :
    List String × List (String × ColumnMetadata) :=
  languages.foldl (ensureLangStep columnMap) (header, [])

/-- `SerializeSourceCSVOptions` from `csv-parser.ts`. -/
structure SerializeSourceCSVOptions where
  languages : List String
  rows : List LocalizationRow
  header : Option (List String) := none
  languageColumnMap : Option (List (String × ColumnMetadata)) := none
  descColumn : Option ColumnMetadata := none
  typeColumn : Option ColumnMetadata := none

/-- `SerializedSourceCSVResult` from `csv-parser.ts`. -/
structure SerializedSourceCSVResult where
  content : String
  header : List String
  languageColumnMap : List (String × ColumnMetadata)
  descColumn : ColumnMetadata
  typeColumn : ColumnMetadata
deriving Repr, DecidableEq

/-- Row body of `serializeSourceCSV`: an all-empty cell array of the header's
width, patched at the key/type/desc/language columns (`row.description ??
row.context ?? ''` collapses to `row.description`, which is total here; the
`none` language branch is unreachable because `ensureLanguageColumns`
resolves every requested language). -/
def serializeRow (keyIndex : Nat) (typeCol descCol : ColumnMetadata)
    (langMap : List (String × ColumnMetadata)) (languages : List String)
    (headerLen : Nat) (row : LocalizationRow) : String :=
  String.intercalate ","
    (languages.foldl
      (fun vs lang =>
        match alookup langMap lang with
        | some col => vs.set col.index (escapeCSVField ((alookup row.translations lang).getD ""))
        | none => vs)
      ((((List.replicate headerLen "").set keyIndex (escapeCSVField row.key)).set
          typeCol.index (escapeCSVField (row.type.getD "Text"))).set
        descCol.index (escapeCSVField row.description)))

/-- `serializeSourceCSV` from `csv-parser.ts`. -/
def serializeSourceCSV (o : SerializeSourceCSVOptions) : SerializedSourceCSVResult :=
  let kh := ensureKeyColumn (o.header.getD [])
  let th := ensureColumn kh.2 o.typeColumn "Type"
  let dh := ensureColumn th.2 o.descColumn "Desc"
  let hm := ensureLanguageColumns dh.2 o.languages o.languageColumnMap
  { content := String.intercalate "\n"
      (String.intercalate "," hm.1 ::
        o.rows.map (serializeRow kh.1 th.1 dh.1 hm.2 o.languages hm.1.length))
    header := hm.1
    languageColumnMap := hm.2
    descColumn := dh.1
    typeColumn := th.1 }

/-! ## Sidecar metadata (`git-utils.ts`) -/

/-- `MetaEntry` from `git-utils.ts`. -/
structure MetaEntry where
  key : String
  context : String
  screenshot : Option String := none
  linkedKeys : List String
  notes : Option String := none
deriving Repr, DecidableEq

/-- `buildFallbackMap` from `git-utils.ts`: one entry per row keyed by the
row's key (`context ?? description ?? ''` collapses to `context`, which is
total in this model). -/
def buildFallbackMap (rows : List LocalizationRow) : List (String × MetaEntry) :=
  rows.foldl
    (fun acc row =>
      aupsert acc row.key
        { key := row.key
          context := row.context
          screenshot := row.screenshot
          linkedKeys := row.linkedKeys.getD []
          notes := row.notes })
    []

/-- Insertion step for the `rows.sort((a, b) => a.key.localeCompare(b.key))`
in `serializeMetaRows`; `localeCompare` is modelled as code-point order
(the claims below use only that sorting permutes the rows). -/
def insertByKey (r : LocalizationRow) : List LocalizationRow → List LocalizationRow
  | [] => [r]
  | x :: xs => if r.key < x.key then r :: x :: xs else x :: insertByKey r xs

/-- Sorted copy of the rows used by `serializeMetaRows`. -/
def sortRowsByKey (rows : List LocalizationRow) : List LocalizationRow :=
  rows.foldr insertByKey []

/-- One serialized sidecar data row from `serializeMetaRows`
(the private `escape` there is byte-for-byte `escapeCSVField`). -/
def metaLine (row : LocalizationRow) : String :=
  String.intercalate ","
    [escapeCSVField row.key,
      escapeCSVField row.context,
      escapeCSVField (row.screenshot.getD ""),
      escapeCSVField (match row.linkedKeys with
        | some (k :: ks) => String.intercalate "," (k :: ks)
        | _ => ""),
      escapeCSVField (row.notes.getD "")]

/-- Data rows of the serialized sidecar: one line per row, sorted by key. -/
def metaDataLines (rows : List LocalizationRow) : List String :=
  (sortRowsByKey rows).map metaLine

/-- `serializeMetaRows` from `git-utils.ts`. -/
def serializeMetaRows (rows : List LocalizationRow) : String :=
  String.intercalate "\n" ("Key,Context,ScreenshotBase64,LinkedKeys,Notes" :: metaDataLines rows)

/-- Content written by `writeMetaFile`: a byte-order mark followed by the
serialized sidecar rows. -/
def writeMetaFileContent (rows : List LocalizationRow) : String :=
  "﻿" ++ serializeMetaRows rows

/-- Write events against the two containers; the crash-recovery temp file is
outside the model. -/
inductive WriteTarget
  | source
  | meta
deriving Repr, DecidableEq

/-- `MetaLoadResult` from `git-utils.ts` (handles modelled by presence). -/
structure MetaLoadResult where
  hasMetaHandle : Bool
  metaExists : Bool
  metaByKey : List (String × MetaEntry)
  lastModified : Option Nat
deriving Repr, DecidableEq

/-- Filesystem environment for `loadMetaData`: which of its `try` blocks
succeed, and what the on-disk sidecar parses to when read. -/
structure MetaEnv where
  readExistingOk : Bool
  fileAbsent : Bool
  openErrorOther : Bool
  createOk : Bool
  fileMap : List (String × MetaEntry)
  fileLastModified : Nat
  createdLastModified : Nat
deriving Repr, DecidableEq

/-- `loadMetaData` from `git-utils.ts`, with its filesystem calls resolved by
`MetaEnv` and writes recorded in a trace.  Branches, in source order: no
handle at all; a readable stored handle; no folder handle; a readable
sidecar in the folder; a non-NotFound open error; creating the sidecar
(with `writeMetaFile`, a metadata write during load, returning
`metaExists := false`); creation failure. -/
def loadMetaData (folderHandle existingHandle : Bool) (env : MetaEnv)
    (rows : List LocalizationRow) : MetaLoadResult × List WriteTarget :=
  if !folderHandle ∧ !existingHandle then
    (⟨false, false, buildFallbackMap rows, none⟩, [])
  else if existingHandle ∧ env.readExistingOk then
    (⟨true, true, env.fileMap, some env.fileLastModified⟩, [])
  else if !folderHandle then
    (⟨false, false, buildFallbackMap rows, none⟩, [])
  else if !env.fileAbsent ∧ !env.openErrorOther then
    (⟨true, true, env.fileMap, some env.fileLastModified⟩, [])
  else if env.openErrorOther then
    (⟨false, false, buildFallbackMap rows, none⟩, [])
  else if env.createOk then
    (⟨true, false, buildFallbackMap rows, some env.createdLastModified⟩, [WriteTarget.meta])
  else
    (⟨false, false, buildFallbackMap rows, none⟩, [])

/-! ## Merge engine (`WelcomeScreen.tsx`) -/

/-- Keys reported by the `console.warn` loop of `mergeRowsWithMeta`:
metadata ids with no matching source row. -/
def orphanMetaKeys (rows : List LocalizationRow)
    (metaByKey : List (String × MetaEntry)) : List String :=
  (metaByKey.map (fun p => p.1)).filter (fun k => !(rows.any (fun row => row.key == k)))

/-- `mergeRowsWithMeta` from `WelcomeScreen.tsx`: a left join of the source
rows with the metadata entries; orphan entries only produce a warning and do
not appear in the result.  With `description`/`context` total, the
`??`-chains collapse as annotated. -/
def mergeRowsWithMeta (rows : List LocalizationRow)
    (metaByKey : List (String × MetaEntry)) : List LocalizationRow :=
  rows.map (fun row =>
    match alookup metaByKey row.key with
    | none =>
      { row with
        description := row.description  -- fallback = description ?? context ?? ''
        context := row.context }        -- context ?? fallback
    | some entry =>
      { row with
        description := row.description  -- description ?? context ?? entry context
        context := entry.context        -- entry context ?? row context ?? description ?? ''
        screenshot := match entry.screenshot with
          | some s => some s
          | none => row.screenshot
        linkedKeys := if entry.linkedKeys.length ≠ 0 then some entry.linkedKeys else row.linkedKeys
        notes := match entry.notes with
          | some n => some n
          | none => row.notes })

/-! ## Editor state and edit operations (project Index page) -/

/-- Projection of `ProjectState` (`types/locax.ts`) onto the fields the
save/edit claims depend on; file and directory handles are modelled by
presence. -/
structure ProjState where
  hasSourceHandle : Bool
  hasFolderHandle : Bool
  hasMetaHandle : Bool
  metaExists : Bool
  sourceDirty : Bool
  metaDirty : Bool
  sourceLastModified : Option Nat
  metaLastModified : Option Nat
  rows : List LocalizationRow
  workbookRowMap : List (String × Nat)
deriving Repr, DecidableEq

/-- A `Partial<LocalizationRow>` argument to `updateRow`; `some` marks a
property present in the update object. -/
structure RowUpdates where
  key : Option String := none
  description : Option String := none
  context : Option String := none
  translations : Option (List (String × String)) := none
  screenshot : Option String := none
  linkedKeys : Option (List String) := none
  notes : Option String := none
  type : Option String := none
deriving Repr, DecidableEq

/-- JS spread `{ ...row, ...updates }`. -/
def applyRowUpdates (row : LocalizationRow) (u : RowUpdates) : LocalizationRow :=
  { key := u.key.getD row.key
    description := u.description.getD row.description
    context := u.context.getD row.context
    translations := u.translations.getD row.translations
    screenshot := match u.screenshot with
      | some s => some s
      | none => row.screenshot
    linkedKeys := match u.linkedKeys with
      | some l => some l
      | none => row.linkedKeys
    notes := match u.notes with
      | some n => some n
      | none => row.notes
    type := match u.type with
      | some t => some t
      | none => row.type }

/-- `markDirtyFromUpdates` from the Index page: key/description/translations/
type touch the source surface, context/screenshot/linkedKeys/notes the
metadata surface; flags accumulate by boolean or. -/
def markDirtyFromUpdates (st : ProjState) (u : RowUpdates) : Bool × Bool :=
  (st.sourceDirty || (u.key.isSome || u.description.isSome ||
      u.translations.isSome || u.type.isSome),
    st.metaDirty || (u.context.isSome || u.screenshot.isSome ||
      u.linkedKeys.isSome || u.notes.isSome))

/-- `updateRow` from the Index page: patch every row whose key matches, mark
dirty surfaces, and — when the update renames the key and the workbook row
map has a truthy entry for the old key — rebind that row index to the new
key and delete the old binding. -/
def updateRow (st : ProjState) (key : String) (u : RowUpdates) : ProjState :=
  { st with
    rows := st.rows.map (fun row => if row.key == key then applyRowUpdates row u else row)
    workbookRowMap :=
      match u.key with
      | some newKey =>
        if newKey ≠ "" ∧ (alookup st.workbookRowMap key).getD 0 ≠ 0 then
          aremove (aupsert st.workbookRowMap newKey ((alookup st.workbookRowMap key).getD 0)) key
        else st.workbookRowMap
      | none => st.workbookRowMap
    sourceDirty := (markDirtyFromUpdates st u).1
    metaDirty := (markDirtyFromUpdates st u).2 }

/-- The `onAddKey` callback of the Index page: append the new row and mark
both surfaces dirty — there is no duplicate-identifier check. -/
def onAddKey (st : ProjState) (newRow : LocalizationRow) : ProjState :=
  { st with rows := st.rows ++ [newRow], sourceDirty := true, metaDirty := true }

/-- JS `String.prototype.trim` on a `String`. -/
def trimStr (s : String) : String := String.mk (csvTrim s.data)

/-- `handleAddKey` from `CategoryTree.tsx`: require a non-blank category,
key name and English text, then build the new row `category:name`; the
surrounding row list is never consulted, so duplicates are not rejected. -/
def handleAddKey (selectedCategory newKeyName newKeyEnglish newKeyDescription
    newKeyContext : String) : Option LocalizationRow :=
  if trimStr selectedCategory = "" ∨ trimStr newKeyName = "" ∨ trimStr newKeyEnglish = "" then
    none
  else
    some {
      key := trimStr selectedCategory ++ ":" ++ trimStr newKeyName
      type := some "Text"
      description := trimStr newKeyDescription
      context := trimStr newKeyContext
      translations := [("en", trimStr newKeyEnglish)] }

/-! ## Manual save (Index page `handleManualSave`) -/

/-- The errors thrown along `handleManualSave`, in source order. -/
inductive SaveError
  | manualSaveUnavailable
  | permissionDenied
  | sourceModifiedExternally
  | metaInaccessible
  | metaModifiedExternally
  | sourceWriteFailed
  | metaWriteFailed
deriving Repr, DecidableEq

/-- Filesystem environment for one save attempt: permission outcome, the
current on-disk `lastModified` of each container, and whether each write
succeeds (with the post-write timestamps). -/
structure SaveEnv where
  permissionDenied : Bool
  sourceNow : Nat
  metaNow : Nat
  metaCreateOk : Bool
  sourceWriteOk : Bool
  metaWriteOk : Bool
  sourceNewTime : Nat
  metaNewTime : Nat
deriving Repr, DecidableEq

/-- The JS truthy-guarded timestamp comparison
`stored && stored !== current` used for both containers. -/
def witnessMismatch (stored : Option Nat) (current : Nat) : Bool :=
  match stored with
  | some t => t ≠ 0 && t ≠ current
  | none => false

/-- `ensureMetaFileHandle` from `git-utils.ts`: reuse the stored handle
(no write), else create `localization_meta.csv` in the project folder and
write the fallback rows into it, else fail. -/
def ensureMetaFileHandleM (st : ProjState) (env : SaveEnv) : Bool × List WriteTarget :=
  if st.hasMetaHandle then (true, [])
  else if st.hasFolderHandle then
    if env.metaCreateOk then (true, [WriteTarget.meta]) else (false, [])
  else (false, [])

/-- Result of one `handleManualSave` call: the project state after the call
(unchanged whenever an error is thrown, since `setProjectState` is only
reached on success), the error, and the container writes performed. -/
structure SaveOutcome where
  state : ProjState
  error : Option SaveError
  writes : List WriteTarget
deriving Repr, DecidableEq

/-- `handleManualSave` from the project Index page, in source order: missing
source handle; permission denied; source-witness mismatch (before any
write); `ensureMetaFileHandle`; meta-witness mismatch (before the container
writes); `writeSourceFile`; `writeMetaFile`; on success clear both dirty
flags and refresh both witness timestamps. -/
def handleManualSave (st : ProjState) (env : SaveEnv) : SaveOutcome :=
  if !st.hasSourceHandle then ⟨st, some SaveError.manualSaveUnavailable, []⟩
  else if env.permissionDenied then ⟨st, some SaveError.permissionDenied, []⟩
  else if witnessMismatch st.sourceLastModified env.sourceNow then
    ⟨st, some SaveError.sourceModifiedExternally, []⟩
  else
    let mh := ensureMetaFileHandleM st env
    if !mh.1 then ⟨st, some SaveError.metaInaccessible, mh.2⟩
    else if witnessMismatch st.metaLastModified env.metaNow then
      ⟨st, some SaveError.metaModifiedExternally, mh.2⟩
    else if !env.sourceWriteOk then ⟨st, some SaveError.sourceWriteFailed, mh.2⟩
    else if !env.metaWriteOk then
      ⟨st, some SaveError.metaWriteFailed, mh.2 ++ [WriteTarget.source]⟩
    else
      ⟨{ st with
          hasMetaHandle := true
          metaExists := true
          sourceDirty := false
          metaDirty := false
          sourceLastModified := some env.sourceNewTime
          metaLastModified := some env.metaNewTime },
        none, mh.2 ++ [WriteTarget.source, WriteTarget.meta]⟩

/-! ## Spreadsheet writer row handling (`source-file-parser.ts`) -/

/-- `normalizeWorkbookRowMap`: empty maps pass through; when every stored
index is at least 2 the map "looks legacy" and every index is decremented
(floored at 1); otherwise the map is used verbatim. -/
def normalizeWorkbookRowMap (rowMap : List (String × Nat)) : List (String × Nat) :=
  match rowMap with
  | [] => []
  | p :: rest =>
    if ((p :: rest).map (fun q => q.2)).all (fun v => 2 ≤ v) then
      (p :: rest).map (fun q => (q.1, max 1 (q.2 - 1)))
    else p :: rest

/-- `existingIndices.length ? Math.max(...existingIndices) + 1 : 1` from
`writeXlsxSource`. -/
def initialNextRowIndex (existing : List (String × Nat)) : Nat :=
  match existing.map (fun p => p.2) with
  | [] => 1
  | v :: vs => vs.foldl max v + 1

/-- The `rows.forEach` loop of `writeXlsxSource`, reduced to the row index
each record's cells are written at: the existing map's binding when present,
otherwise the next append index. -/
def assignRowsAux (existing : List (String × Nat)) :
    List LocalizationRow → Nat → List (String × Nat)
  | [], _ => []
  | row :: rest, next =>
    match alookup existing row.key with
    | some r => (row.key, r) :: assignRowsAux existing rest next
    | none => (row.key, next) :: assignRowsAux existing rest (next + 1)

/-- Row indices written by one `writeXlsxSource` call, per record key. -/
def assignRows (existing : List (String × Nat)) (rows : List LocalizationRow) :
    List (String × Nat) :=
  assignRowsAux existing rows (initialNextRowIndex existing)

/-- One step of the `languages.forEach` column-allocation loop of
`writeXlsxSource`: a language missing from the map gets one appended column
headed by the raw code. -/
def xlsxLangStep (acc : List String × List (String × ColumnMetadata)) (lang : String) :
    List String × List (String × ColumnMetadata) :=
  if (alookup acc.2 lang).isSome then acc
  else (acc.1 ++ [lang], aupsert acc.2 lang ⟨acc.1.length, lang⟩)

/-- The `languages.forEach` column-allocation loop of `writeXlsxSource`. -/
def xlsxEnsureLanguageColumns (header : List String)
    (languageColumnMap : List (String × ColumnMetadata)) (languages : List String) :
    List String × List (String × ColumnMetadata) :=
  languages.foldl xlsxLangStep (header, languageColumnMap)

/-! ## Well-formed delimited-text sources for the round-trip claim -/

/-- `joinSep sep [a, b, c] = a ++ sep ++ b ++ sep ++ c`: the character-level
shape of `Array.join`-style separator interleaving; `String.intercalate`
computes exactly this on the underlying character lists. -/
def joinSep (sep : List Char) : List (List Char) → List Char
  | [] => []
  | [c] => c
  | c :: rest => c ++ sep ++ joinSep sep rest

/-- A cell value the delimited-text round trip can preserve: no raw newline
or carriage return (the decoder splits physical lines before quote
handling), and no leading or trailing whitespace (the decoder trims every
parsed field). -/
def cellOK (s : String) : Bool :=
  s.data.all (fun c => !(c == '\n') && !(c == '\r')) &&
  (match s.data.head? with
    | some c => !c.isWhitespace
    | none => true) &&
  (match s.data.getLast? with
    | some c => !c.isWhitespace
    | none => true)

/-- A header label: a non-empty round-trip-safe cell without quotes or
delimiters (the serializer writes the header row unescaped). -/
def headerOK (s : String) : Bool :=
  cellOK s && s.data.all (fun c => !(c == '"') && !(c == ',')) && !(s == "")

/-- One data row of a well-formed source, by column role. -/
structure WFRow where
  key : String
  rowType : String
  desc : String
  en : String
  vals : List String
deriving Repr, DecidableEq

/-- Row discipline: all cells round-trip safe, key and Type non-empty (so
the parser's key-skip and Type-defaulting do not rewrite them), one value
per extra language column. -/
def wfRowOK (L : Nat) (row : WFRow) : Bool :=
  cellOK row.key && cellOK row.rowType && cellOK row.desc && cellOK row.en &&
  !(row.key == "") && !(row.rowType == "") && (row.vals.length == L) &&
  row.vals.all cellOK

/-- A structured well-formed source: the reserved `Key,Type,Desc,English`
columns followed by bracket-coded language columns. -/
structure WFSource where
  langHeaders : List String
  rows : List WFRow
deriving Repr, DecidableEq

/-- The language short-code the parser extracts from a header. -/
def langCode (h : String) : String :=
  String.mk (((findBracketCode h.data).getD []).map Char.toLower)

/-- Well-formedness of a structured source: every extra header is a
bracket-coded safe label, codes are distinct and distinct from the base
language `en`, every row fits the column layout, and record identifiers
are unique. -/
def wfSourceOK (s : WFSource) : Prop :=
  (∀ h ∈ s.langHeaders, headerOK h = true ∧ (findBracketCode h.data).isSome = true) ∧
  (s.langHeaders.map langCode).Nodup ∧
  "en" ∉ s.langHeaders.map langCode ∧
  (∀ row ∈ s.rows, wfRowOK s.langHeaders.length row = true) ∧
  (s.rows.map (fun r => r.key)).Nodup ∧
  s.rows ≠ []

instance (s : WFSource) : Decidable (wfSourceOK s) := by
  unfold wfSourceOK
  infer_instance

/-- The serialized form of one well-formed row (cells escaped, joined by
the delimiter). -/
def renderRow (row : WFRow) : List Char :=
  joinSep [',']
    (([row.key, row.rowType, row.desc, row.en] ++ row.vals).map
      (fun f => (escapeCSVField f).data))

/-- The serialized form of a well-formed source: unescaped header line,
then one line per row. -/
def renderSource (s : WFSource) : List Char :=
  joinSep ['\n']
    (joinSep [','] ((["Key", "Type", "Desc", "English"] ++ s.langHeaders).map String.data) ::
      s.rows.map renderRow)

/-- The language-column map `parseSourceCSV` builds on a well-formed
source. -/
def langMapOf (hs : List String) : List (String × ColumnMetadata) :=
  ("en", ⟨3, "English"⟩) :: (List.enumFrom 4 hs).map (fun p => (langCode p.2, ⟨p.1, p.2⟩))

/-- The `(code, column)` pairs `parseSourceCSV` collects on a well-formed
source. -/
def langIdxOf (hs : List String) : List (String × Nat) :=
  ("en", 3) :: (List.enumFrom 4 hs).map (fun p => (langCode p.2, p.1))

/-- The `LocalizationRow` a well-formed row decodes to. -/
def rowOf (hs : List String) (row : WFRow) : LocalizationRow :=
  { key := row.key
    description := row.desc
    context := row.desc
    type := some row.rowType
    translations := ("en", row.en) :: (hs.map langCode).zip row.vals }

/-- The full parse result of a well-formed source. -/
def expectedParse (s : WFSource) : SourceCSVParseResult :=
  { languages := "en" :: s.langHeaders.map langCode
    rows := s.rows.map (rowOf s.langHeaders)
    header := ["Key", "Type", "Desc", "English"] ++ s.langHeaders
    languageColumnMap := langMapOf s.langHeaders
    descColumn := some ⟨2, "Desc"⟩
    typeColumn := some ⟨1, "Type"⟩
    rowMap := (List.enumFrom 2 s.rows).map (fun p => (p.2.key, p.1)) }

/-- The serializer options `handleManualSave` passes straight back from a
parse result. -/
def optionsOf (p : SourceCSVParseResult) : SerializeSourceCSVOptions :=
  { languages := p.languages
    rows := p.rows
    header := some p.header
    languageColumnMap := some p.languageColumnMap
    descColumn := p.descColumn
    typeColumn := p.typeColumn }

/-- A source whose Desc field carries a quoted embedded newline — the shape
`escapeCSVField` itself produces for multi-line text. -/
def csvWithEmbeddedNewline : String :=
  "Key,Type,Desc,English\na,T,\"line1\nline2\",hello"

/-- Scenario A's source, structured. -/
def scenarioASource : WFSource :=
  { langHeaders := ["Deutsch [de]"]
    rows := [{ key := "ui:start", rowType := "Text", desc := "Main menu",
               en := "Start Game", vals := ["Starten"] }] }

/-! ## Concrete sample data used by the witness theorems -/

/-- Sample row for witness instantiations. -/
def sampleRow : LocalizationRow :=
  { key := "ui:start"
    description := "Main menu"
    context := "Main menu"
    translations := [("en", "Start Game"), ("de", "Starten")]
    type := some "Text" }

/-- Project state of a freshly loaded sample project with pending edits. -/
def sampleState : ProjState :=
  { hasSourceHandle := true
    hasFolderHandle := true
    hasMetaHandle := true
    metaExists := true
    sourceDirty := true
    metaDirty := true
    sourceLastModified := some 100
    metaLastModified := some 200
    rows := [sampleRow]
    workbookRowMap := [("ui:start", 2)] }

/-- Environment where the source container was modified externally after
load (current timestamp 101 against the stored witness 100). -/
def envSourceTouched : SaveEnv :=
  { permissionDenied := false
    sourceNow := 101
    metaNow := 200
    metaCreateOk := true
    sourceWriteOk := true
    metaWriteOk := true
    sourceNewTime := 300
    metaNewTime := 301 }

/-- Environment where only the metadata sidecar was modified externally. -/
def envMetaTouched : SaveEnv :=
  { envSourceTouched with sourceNow := 100, metaNow := 201 }

/-- Environment where both witness checks pass and both writes succeed. -/
def envAllOk : SaveEnv :=
  { envSourceTouched with sourceNow := 100, metaNow := 200 }

/-- Environment where the metadata write throws after the source write. -/
def envMetaWriteFails : SaveEnv :=
  { envAllOk with metaWriteOk := false }

/-- Sidecar map holding one matching entry and one orphan (`ghost`) entry. -/
def ghostMeta : List (String × MetaEntry) :=
  [("ui:start", { key := "ui:start", context := "Start button", linkedKeys := [] }),
    ("ghost", { key := "ghost", context := "orphan note", linkedKeys := [] })]

/-- `loadMetaData` environment where the sidecar file does not exist and
creating it succeeds. -/
def metaAbsentEnv : MetaEnv :=
  { readExistingOk := false
    fileAbsent := true
    openErrorOther := false
    createOk := true
    fileMap := []
    fileLastModified := 0
    createdLastModified := 42 }

/-- The row `handleAddKey "ui" "start" ...` builds — its key collides with
`sampleRow`. -/
def dupNewRow : LocalizationRow :=
  { key := "ui:start"
    type := some "Text"
    description := "Menu entry"
    context := "Menu entry"
    translations := [("en", "Start Game")] }

/-- A resolved header for the column-allocation witnesses. -/
def c5Header : List String := ["Key", "Type", "Desc", "English", "Deutsch [de]"]

/-- A resolved language-column map matching `c5Header`. -/
def c5Map : List (String × ColumnMetadata) :=
  [("en", ⟨3, "English"⟩), ("de", ⟨4, "Deutsch [de]"⟩)]

end Locax

namespace Locax

/-! ## Helper lemmas: association lists -/

theorem alookup_nil {α : Type} (k : String) : alookup ([] : List (String × α)) k = none := rfl

theorem alookup_cons {α : Type} (p : String × α) (l : List (String × α)) (k : String) :
    alookup (p :: l) k = if p.1 == k then some p.2 else alookup l k := by
  cases hp : p.1 == k <;> simp [alookup, List.find?_cons, hp]

theorem alookup_append_left {α : Type} {l₁ : List (String × α)} {k : String} {v : α}
    (l₂ : List (String × α)) (h : alookup l₁ k = some v) :
    alookup (l₁ ++ l₂) k = some v := by
  induction l₁ with
  | nil => simp [alookup_nil] at h
  | cons p rest ih =>
    cases hp : p.1 == k
    · rw [alookup_cons, if_neg (by simp [hp])] at h
      rw [List.cons_append, alookup_cons, if_neg (by simp [hp])]
      exact ih h
    · rw [alookup_cons, if_pos (by simp [hp])] at h
      rw [List.cons_append, alookup_cons, if_pos (by simp [hp])]
      exact h

theorem alookup_append_of_none {α : Type} {l₁ : List (String × α)} {k : String}
    (l₂ : List (String × α)) (h : alookup l₁ k = none) :
    alookup (l₁ ++ l₂) k = alookup l₂ k := by
  induction l₁ with
  | nil => simp
  | cons p rest ih =>
    cases hp : p.1 == k
    · rw [alookup_cons, if_neg (by simp [hp])] at h
      rw [List.cons_append, alookup_cons, if_neg (by simp [hp])]
      exact ih h
    · rw [alookup_cons, if_pos (by simp [hp])] at h
      simp at h

theorem aupsert_of_none {α : Type} {l : List (String × α)} {k : String} (v : α)
    (h : alookup l k = none) : aupsert l k v = l ++ [(k, v)] := by
  have hfind : (l.find? (fun p => p.1 == k)) = none := by
    cases hf : l.find? (fun p => p.1 == k) with
    | none => rfl
    | some p => rw [alookup, hf] at h; simp at h
  simp [aupsert, hfind]

theorem alookup_mapUpdate_self {α : Type} (l : List (String × α)) (k : String) (v : α)
    (h : (alookup l k).isSome) :
    alookup (l.map (fun p => if p.1 == k then (k, v) else p)) k = some v := by
  induction l with
  | nil => simp [alookup_nil] at h
  | cons p rest ih =>
    cases hp : p.1 == k
    · rw [alookup_cons, if_neg (by simp [hp])] at h
      have hhead : (if p.1 == k then (k, v) else p) = p := by simp [hp]
      rw [List.map_cons, hhead, alookup_cons, if_neg (by simp [hp])]
      exact ih h
    · have hhead : (if p.1 == k then (k, v) else p) = (k, v) := by simp [hp]
      rw [List.map_cons, hhead, alookup_cons]
      simp

theorem alookup_mapUpdate_of_ne {α : Type} (l : List (String × α)) {k k' : String} (v : α)
    (h : k' ≠ k) :
    alookup (l.map (fun p => if p.1 == k then (k, v) else p)) k' = alookup l k' := by
  induction l with
  | nil => simp
  | cons p rest ih =>
    cases hp : p.1 == k
    · have hhead : (if p.1 == k then (k, v) else p) = p := by simp [hp]
      rw [List.map_cons, hhead, alookup_cons, alookup_cons, ih]
    · have hhead : (if p.1 == k then (k, v) else p) = (k, v) := by simp [hp]
      have hpk : p.1 = k := by simpa using hp
      have hne : ¬(p.1 == k') = true := by simp [hpk]; exact fun hh => h hh.symm
      have hne' : ¬((k, v).1 == k') = true := by simp; exact fun hh => h hh.symm
      rw [List.map_cons, hhead, alookup_cons, if_neg hne', alookup_cons, if_neg hne, ih]

theorem alookup_aupsert_self {α : Type} (l : List (String × α)) (k : String) (v : α) :
    alookup (aupsert l k v) k = some v := by
  by_cases hs : (l.find? (fun p => p.1 == k)).isSome
  · rw [aupsert, if_pos hs]
    exact alookup_mapUpdate_self l k v (by simpa [alookup] using hs)
  · have hnone : alookup l k = none := by
      rw [alookup]
      cases hf : l.find? (fun p => p.1 == k) with
      | none => rfl
      | some q => exact absurd (by simp [hf]) hs
    rw [aupsert, if_neg hs, alookup_append_of_none _ hnone, alookup_cons]
    simp

theorem alookup_aupsert_of_ne {α : Type} (l : List (String × α)) {k k' : String} (v : α)
    (h : k' ≠ k) : alookup (aupsert l k v) k' = alookup l k' := by
  by_cases hs : (l.find? (fun p => p.1 == k)).isSome
  · rw [aupsert, if_pos hs]
    exact alookup_mapUpdate_of_ne l v h
  · rw [aupsert, if_neg hs]
    cases hl : alookup l k' with
    | some v' => exact alookup_append_left _ hl
    | none =>
      rw [alookup_append_of_none _ hl, alookup_cons,
        if_neg (by simp; exact fun hh => h hh.symm)]
      rfl

theorem alookup_map_value {α β : Type} (f : α → β) (l : List (String × α)) (k : String) :
    alookup (l.map (fun p => (p.1, f p.2))) k = (alookup l k).map f := by
  induction l with
  | nil => simp [alookup]
  | cons p rest ih =>
    cases hp : p.1 == k
    · rw [List.map_cons, alookup_cons, alookup_cons]
      simp only [hp]
      simpa using ih
    · rw [List.map_cons, alookup_cons, alookup_cons]
      simp [hp]

theorem alookup_aremove_of_ne {α : Type} (l : List (String × α)) {k k' : String}
    (h : k' ≠ k) : alookup (aremove l k) k' = alookup l k' := by
  induction l with
  | nil => rfl
  | cons p rest ih =>
    cases hp : p.1 == k
    · rw [aremove, List.filter_cons]
      simp only [hp, Bool.not_false, if_pos]
      rw [alookup_cons, alookup_cons, ← ih]
      rfl
    · have hpk : p.1 = k := by simpa using hp
      have hne : ¬(p.1 == k') = true := by simp [hpk]; exact fun hh => h hh.symm
      rw [aremove, List.filter_cons]
      simp only [hp, Bool.not_true, if_neg (by simp : ¬(false = true))]
      rw [alookup_cons, if_neg hne, ← ih]
      rfl

/-! ## Claim C1: external modification aborts the save before any write -/

/-- C1.  For every project state loaded at time t0, if either the source
container or the metadata sidecar is externally modified after t0 (its
current `lastModified` differs from the stored witness timestamp), then a
subsequent save fails with an external-modification error and performs zero
writes to either container.  (The stored witness scenario presupposes a
source handle, granted permission, and — for the sidecar case — the stored
sidecar handle that accompanies a stored sidecar witness.) -/
theorem save_aborts_on_external_modification (st : ProjState) (env : SaveEnv)
    (hs : st.hasSourceHandle = true)
    (hp : env.permissionDenied = false)
    (h : witnessMismatch st.sourceLastModified env.sourceNow = true ∨
      (witnessMismatch st.sourceLastModified env.sourceNow = false ∧
        st.hasMetaHandle = true ∧
        witnessMismatch st.metaLastModified env.metaNow = true)) :
    ((handleManualSave st env).error = some SaveError.sourceModifiedExternally ∨
      (handleManualSave st env).error = some SaveError.metaModifiedExternally) ∧
    (handleManualSave st env).writes = [] ∧
    (handleManualSave st env).state = st := by
  rcases h with h | ⟨h1, h2, h3⟩
  · simp [handleManualSave, hs, hp, h]
  · simp [handleManualSave, hs, hp, h1, ensureMetaFileHandleM, h2, h3]

/-- Witness for C1: both externally-modified scenarios at concrete inputs. -/
theorem save_aborts_on_external_modification_witness :
    (((handleManualSave sampleState envSourceTouched).error =
        some SaveError.sourceModifiedExternally ∨
      (handleManualSave sampleState envSourceTouched).error =
        some SaveError.metaModifiedExternally) ∧
      (handleManualSave sampleState envSourceTouched).writes = [] ∧
      (handleManualSave sampleState envSourceTouched).state = sampleState) ∧
    (((handleManualSave sampleState envMetaTouched).error =
        some SaveError.sourceModifiedExternally ∨
      (handleManualSave sampleState envMetaTouched).error =
        some SaveError.metaModifiedExternally) ∧
      (handleManualSave sampleState envMetaTouched).writes = [] ∧
      (handleManualSave sampleState envMetaTouched).state = sampleState) :=
  ⟨save_aborts_on_external_modification sampleState envSourceTouched (by decide) (by decide)
      (Or.inl (by decide)),
    save_aborts_on_external_modification sampleState envMetaTouched (by decide) (by decide)
      (Or.inr (by decide))⟩

/-! ## Claim C2: dirty flags and witness change only after both writes -/

/-- C2.  For every save invocation, the dirty flags are cleared and the
modification witness refreshed only after both the source-container write
and the metadata-sidecar write have succeeded (a successful save has both
writes in its trace); if either write throws, the project state — dirty
flags and witness included — is left exactly as it was. -/
theorem save_clears_dirty_only_after_both_writes (st : ProjState) (env : SaveEnv) :
    ((handleManualSave st env).error = none →
      WriteTarget.source ∈ (handleManualSave st env).writes ∧
      WriteTarget.meta ∈ (handleManualSave st env).writes ∧
      (handleManualSave st env).state.sourceDirty = false ∧
      (handleManualSave st env).state.metaDirty = false ∧
      (handleManualSave st env).state.sourceLastModified = some env.sourceNewTime ∧
      (handleManualSave st env).state.metaLastModified = some env.metaNewTime) ∧
    ((env.sourceWriteOk = false ∨ env.metaWriteOk = false) →
      (handleManualSave st env).error ≠ none ∧
      (handleManualSave st env).state = st ∧
      (handleManualSave st env).state.sourceDirty = st.sourceDirty ∧
      (handleManualSave st env).state.metaDirty = st.metaDirty ∧
      (handleManualSave st env).state.sourceLastModified = st.sourceLastModified ∧
      (handleManualSave st env).state.metaLastModified = st.metaLastModified) := by
  cases h1 : st.hasSourceHandle <;>
    cases h2 : env.permissionDenied <;>
    cases h3 : witnessMismatch st.sourceLastModified env.sourceNow <;>
    cases h4 : (ensureMetaFileHandleM st env).1 <;>
    cases h5 : witnessMismatch st.metaLastModified env.metaNow <;>
    cases h6 : env.sourceWriteOk <;>
    cases h7 : env.metaWriteOk <;>
    constructor <;> intro hyp <;> simp_all [handleManualSave]

/-- Witness for C2: a fully successful save at concrete inputs (both writes
in the trace, flags cleared, witness refreshed), via the theorem. -/
theorem save_clears_dirty_only_after_both_writes_witness :
    WriteTarget.source ∈ (handleManualSave sampleState envAllOk).writes ∧
    WriteTarget.meta ∈ (handleManualSave sampleState envAllOk).writes ∧
    (handleManualSave sampleState envAllOk).state.sourceDirty = false ∧
    (handleManualSave sampleState envAllOk).state.metaDirty = false ∧
    (handleManualSave sampleState envAllOk).state.sourceLastModified =
      some envAllOk.sourceNewTime ∧
    (handleManualSave sampleState envAllOk).state.metaLastModified =
      some envAllOk.metaNewTime :=
  (save_clears_dirty_only_after_both_writes sampleState envAllOk).1 (by decide)

/-! ## Helper lemmas: membership, row assignment, sorting, merging -/

theorem alookup_eq_some_mem {α : Type} {l : List (String × α)} {k : String} {v : α}
    (h : alookup l k = some v) : (k, v) ∈ l := by
  induction l with
  | nil => simp [alookup_nil] at h
  | cons p rest ih =>
    cases hp : p.1 == k
    · rw [alookup_cons, if_neg (by simp [hp])] at h
      exact List.mem_cons_of_mem _ (ih h)
    · rw [alookup_cons, if_pos (by simp [hp])] at h
      have hk : p.1 = k := by simpa using hp
      have : p = (k, v) := by
        cases p
        simp at hk h ⊢
        exact ⟨hk, h⟩
      exact this ▸ List.mem_cons_self p rest

theorem alookup_assignRowsAux {existing : List (String × Nat)} {k : String} {r : Nat}
    (rows : List LocalizationRow) (n : Nat)
    (hk : alookup existing k = some r) (hmem : k ∈ rows.map (fun row => row.key)) :
    alookup (assignRowsAux existing rows n) k = some r := by
  induction rows generalizing n with
  | nil => simp at hmem
  | cons row rest ih =>
    by_cases hrk : row.key = k
    · rw [assignRowsAux, hrk, hk, alookup_cons, if_pos (by simp)]
    · have hmem' : k ∈ rest.map (fun row => row.key) := by
        rcases List.mem_map.mp hmem with ⟨x, hx, hxk⟩
        rcases List.mem_cons.mp hx with hx | hx
        · exact absurd (hx ▸ hxk) hrk
        · exact List.mem_map.mpr ⟨x, hx, hxk⟩
      rw [assignRowsAux]
      cases he : alookup existing row.key with
      | some q =>
        rw [alookup_cons, if_neg (by simp [hrk])]
        exact ih _ hmem'
      | none =>
        rw [alookup_cons, if_neg (by simp [hrk])]
        exact ih _ hmem'

theorem insertByKey_perm (r : LocalizationRow) (l : List LocalizationRow) :
    List.Perm (insertByKey r l) (r :: l) := by
  induction l with
  | nil => exact List.Perm.refl _
  | cons x xs ih =>
    rw [insertByKey]
    by_cases h : r.key < x.key
    · rw [if_pos h]
    · rw [if_neg h]
      exact List.Perm.trans (List.Perm.cons x ih) (List.Perm.swap r x xs)

theorem sortRowsByKey_perm (rows : List LocalizationRow) :
    List.Perm (sortRowsByKey rows) rows := by
  induction rows with
  | nil => exact List.Perm.refl _
  | cons r rest ih =>
    exact List.Perm.trans (insertByKey_perm r (sortRowsByKey rest)) (List.Perm.cons r ih)

theorem mergeRowsWithMeta_map_key (rows : List LocalizationRow)
    (metaByKey : List (String × MetaEntry)) :
    (mergeRowsWithMeta rows metaByKey).map (fun r => r.key) = rows.map (fun r => r.key) := by
  rw [mergeRowsWithMeta, List.map_map]
  apply List.map_congr_left
  intro row _
  simp only [Function.comp_apply]
  cases h : alookup metaByKey row.key <;> simp [h]

theorem buildFallbackMap_frame (rows : List LocalizationRow)
    (acc : List (String × MetaEntry)) (x : String)
    (hx : x ∉ rows.map (fun r => r.key)) :
    alookup (rows.foldl
      (fun acc row =>
        aupsert acc row.key
          { key := row.key, context := row.context, screenshot := row.screenshot,
            linkedKeys := row.linkedKeys.getD [], notes := row.notes })
      acc) x = alookup acc x := by
  induction rows generalizing acc with
  | nil => rfl
  | cons row rest ih =>
    have hxr : x ≠ row.key := by
      intro hc
      exact hx (by simp [hc])
    rw [List.foldl_cons, ih _ (by intro hc; exact hx (List.mem_cons_of_mem _ hc)),
      alookup_aupsert_of_ne _ _ hxr]

theorem buildFallbackMap_lookup (rows : List LocalizationRow) (r : LocalizationRow)
    (hmem : r ∈ rows) (hnodup : (rows.map (fun x => x.key)).Nodup) :
    alookup (buildFallbackMap rows) r.key =
      some { key := r.key, context := r.context, screenshot := r.screenshot,
             linkedKeys := r.linkedKeys.getD [], notes := r.notes } := by
  rw [buildFallbackMap]
  suffices h : ∀ acc, alookup (rows.foldl
      (fun acc row =>
        aupsert acc row.key
          ({ key := row.key, context := row.context, screenshot := row.screenshot,
             linkedKeys := row.linkedKeys.getD [], notes := row.notes } : MetaEntry))
      acc) r.key =
      some ({ key := r.key, context := r.context, screenshot := r.screenshot,
              linkedKeys := r.linkedKeys.getD [], notes := r.notes } : MetaEntry) from h []
  induction rows with
  | nil => simp at hmem
  | cons row rest ih =>
    intro acc
    rcases List.mem_cons.mp hmem with heq | hmem'
    · rw [heq]
      have hnd : (row.key :: rest.map (fun x => x.key)).Nodup := hnodup
      have hnotin : row.key ∉ rest.map (fun x => x.key) := (List.nodup_cons.mp hnd).1
      rw [List.foldl_cons, buildFallbackMap_frame rest _ _ hnotin, alookup_aupsert_self]
    · have hnd : (row.key :: rest.map (fun x => x.key)).Nodup := hnodup
      rw [List.foldl_cons]
      exact ih hmem' (List.nodup_cons.mp hnd).2 _

/-! ## Claim C10: the legacy row-map normalization heuristic -/

/-- C10.  `normalizeWorkbookRowMap` decrements every stored row index by one
(floored at 1) exactly when the map is non-empty and every stored index is
at least 2, and passes the map through verbatim otherwise; consequently,
when the stored indices genuinely all lie at 2 or beyond, the spreadsheet
writer addresses each mapped record's cells one row above its recorded
position. -/
theorem workbook_rowmap_legacy_normalization (m : List (String × Nat)) :
    (m ≠ [] → (∀ p ∈ m, 2 ≤ p.2) →
      normalizeWorkbookRowMap m = m.map (fun p => (p.1, p.2 - 1))) ∧
    ((m = [] ∨ ¬ (∀ p ∈ m, 2 ≤ p.2)) → normalizeWorkbookRowMap m = m) ∧
    (∀ (rows : List LocalizationRow) (k : String) (v : Nat),
      (∀ p ∈ m, 2 ≤ p.2) → alookup m k = some v →
      k ∈ rows.map (fun r => r.key) →
      alookup (assignRows (normalizeWorkbookRowMap m) rows) k = some (v - 1)) := by
  have hnorm : ∀ (hall : ∀ p ∈ m, 2 ≤ p.2), m ≠ [] →
      normalizeWorkbookRowMap m = m.map (fun p => (p.1, p.2 - 1)) := by
    intro hall hne
    cases m with
    | nil => exact absurd rfl hne
    | cons p rest =>
      rw [normalizeWorkbookRowMap]
      rw [if_pos (by
        simp only [List.all_eq_true, List.mem_map]
        rintro v ⟨q, hq, rfl⟩
        simpa using hall q hq)]
      apply List.map_congr_left
      intro q hq
      have := hall q hq
      simp only [Prod.mk.injEq, true_and]
      omega
  refine ⟨fun hne hall => hnorm hall hne, ?_, ?_⟩
  · rintro (rfl | hnot)
    · rfl
    · cases m with
      | nil => rfl
      | cons p rest =>
        rw [normalizeWorkbookRowMap, if_neg (by
          simp only [List.all_eq_true, List.mem_map]
          intro hc
          exact hnot (by
            rintro q hq
            simpa using hc q.2 ⟨q, hq, rfl⟩))]
  · intro rows k v hall hlook hmem
    have hne : m ≠ [] := by
      intro hc
      rw [hc, alookup_nil] at hlook
      exact Option.noConfusion hlook
    have hv : 2 ≤ v := by
      have := hall _ (alookup_eq_some_mem hlook)
      simpa using this
    have hlook' : alookup (normalizeWorkbookRowMap m) k = some (v - 1) := by
      rw [hnorm hall hne]
      have h2 := alookup_map_value (fun x => x - 1) m k
      rw [hlook] at h2
      simpa using h2
    exact alookup_assignRowsAux rows _ hlook' hmem

/-- Witness for C10 at the sample map `[("ui:start", 2)]`: the heuristic
fires and the save addresses row 1 instead of the recorded row 2. -/
theorem workbook_rowmap_legacy_normalization_witness :
    normalizeWorkbookRowMap [("ui:start", 2)] = [("ui:start", 1)] ∧
    alookup (assignRows (normalizeWorkbookRowMap [("ui:start", 2)]) [sampleRow])
      "ui:start" = some 1 :=
  ⟨by
      have := (workbook_rowmap_legacy_normalization [("ui:start", 2)]).1
        (by decide) (by decide)
      simpa using this,
    by
      have := (workbook_rowmap_legacy_normalization [("ui:start", 2)]).2.2
        [sampleRow] "ui:start" 2 (by decide) (by decide) (by decide)
      simpa using this⟩

/-! ## Claim C8: adding a record with an existing identifier -/

/-- C8 (code bug in the add-record path).  `handleAddKey` builds the new row
without consulting the existing row set and the `onAddKey` callback appends
it unconditionally, so adding `ui:start` to a project that already contains
`ui:start` raises no duplicate-identifier error and leaves the row set with
a duplicated identifier — the keyed row map, per-key updates and the
spreadsheet writer all assume unique keys. -/
theorem addKey_appends_duplicate_identifier :
    handleAddKey "ui" "start" "Start Game" "Menu entry" "Menu entry" = some dupNewRow ∧
    (onAddKey sampleState dupNewRow).rows.map (fun r => r.key) = ["ui:start", "ui:start"] ∧
    ¬ ((onAddKey sampleState dupNewRow).rows.map (fun r => r.key)).Nodup := by
  decide

/-! ## Claim C9: sidecar absent at import -/

/-- Counterexample for C9: with the project folder accessible and the
sidecar missing, `loadMetaData` already performs the metadata write during
load — the sidecar is not created "on the first save (not before)"; the
result still reports `metaExists = false`, which is what keeps the
"will be created once you save" banner visible. -/
theorem sidecar_created_during_load_cex :
    (loadMetaData true false metaAbsentEnv [sampleRow]).2 = [WriteTarget.meta] ∧
    (loadMetaData true false metaAbsentEnv [sampleRow]).1.metaExists = false := by
  decide

/-- C9 as amended: when the sidecar is absent at import and the folder is
accessible, every loaded working record's context equals its Description
field, but the sidecar is created immediately during load (one metadata
write in the load trace) rather than on the first save; the created sidecar
serialization has exactly one data row per record. -/
theorem sidecar_absent_amended (env : MetaEnv) (rows : List LocalizationRow)
    (habsent : env.fileAbsent = true) (hother : env.openErrorOther = false)
    (hcreate : env.createOk = true)
    (hnodup : (rows.map (fun r => r.key)).Nodup)
    (hctx : ∀ r ∈ rows, r.context = r.description) :
    (loadMetaData true false env rows).2 = [WriteTarget.meta] ∧
    (loadMetaData true false env rows).1.metaByKey = buildFallbackMap rows ∧
    (mergeRowsWithMeta rows (loadMetaData true false env rows).1.metaByKey).map
        (fun r => (r.key, r.context)) =
      rows.map (fun r => (r.key, r.description)) ∧
    (metaDataLines rows).length = rows.length := by
  have hload : loadMetaData true false env rows =
      (⟨true, false, buildFallbackMap rows, some env.createdLastModified⟩,
        [WriteTarget.meta]) := by
    simp [loadMetaData, habsent, hother, hcreate]
  have hmb : (loadMetaData true false env rows).1.metaByKey = buildFallbackMap rows := by
    rw [hload]
  refine ⟨by rw [hload], hmb, ?_, ?_⟩
  · rw [hmb, mergeRowsWithMeta, List.map_map]
    apply List.map_congr_left
    intro row hrow
    simp only [Function.comp_apply]
    rw [buildFallbackMap_lookup rows row hrow hnodup]
    simp [hctx row hrow]
  · rw [metaDataLines, List.length_map, (sortRowsByKey_perm rows).length_eq]

/-- Witness for C9's amended theorem at the sample project. -/
theorem sidecar_absent_amended_witness :
    (loadMetaData true false metaAbsentEnv [sampleRow]).2 = [WriteTarget.meta] ∧
    (loadMetaData true false metaAbsentEnv [sampleRow]).1.metaByKey =
      buildFallbackMap [sampleRow] ∧
    (mergeRowsWithMeta [sampleRow]
        (loadMetaData true false metaAbsentEnv [sampleRow]).1.metaByKey).map
        (fun r => (r.key, r.context)) =
      [sampleRow].map (fun r => (r.key, r.description)) ∧
    (metaDataLines [sampleRow]).length = [sampleRow].length :=
  sidecar_absent_amended metaAbsentEnv [sampleRow] (by decide) (by decide) (by decide)
    (by decide) (by decide)

/-! ## Claim C7: orphaned metadata entries -/

/-- Counterexample for C7: merging a source with one record against a
sidecar holding the orphan id `ghost` drops the orphan from the working set
(it is only warned about), so it is not "retained and exposed as orphaned";
it is excluded from the next save's serialization. -/
theorem orphan_meta_not_retained_cex :
    (mergeRowsWithMeta [sampleRow] ghostMeta).map (fun r => r.key) = ["ui:start"] ∧
    (∀ r ∈ mergeRowsWithMeta [sampleRow] ghostMeta, r.key ≠ "ghost") ∧
    "ghost" ∈ orphanMetaKeys [sampleRow] ghostMeta ∧
    (sortRowsByKey (mergeRowsWithMeta [sampleRow] ghostMeta)).map (fun r => r.key) =
      ["ui:start"] := by
  decide

/-- C7 as amended: for every sidecar entry whose id matches no source
record, load succeeds, the id is logged as a warning (`orphanMetaKeys`),
the merged working set contains exactly the source records — the orphan
entry is dropped, not retained or exposed — and the next save's metadata
serialization (one line per working record) excludes it. -/
theorem orphan_meta_amended (rows : List LocalizationRow)
    (metaByKey : List (String × MetaEntry)) (k : String)
    (hk : k ∈ metaByKey.map (fun p => p.1)) (hnot : k ∉ rows.map (fun r => r.key)) :
    k ∈ orphanMetaKeys rows metaByKey ∧
    (mergeRowsWithMeta rows metaByKey).map (fun r => r.key) = rows.map (fun r => r.key) ∧
    k ∉ (sortRowsByKey (mergeRowsWithMeta rows metaByKey)).map (fun r => r.key) := by
  refine ⟨?_, mergeRowsWithMeta_map_key rows metaByKey, ?_⟩
  · rw [orphanMetaKeys, List.mem_filter]
    refine ⟨hk, ?_⟩
    simp only [Bool.not_eq_true', List.any_eq_false, beq_iff_eq]
    intro row hrow hc
    exact hnot (List.mem_map.mpr ⟨row, hrow, hc⟩)
  · intro hmem
    have hperm := (sortRowsByKey_perm (mergeRowsWithMeta rows metaByKey)).map
      (fun r => r.key)
    have : k ∈ (mergeRowsWithMeta rows metaByKey).map (fun r => r.key) :=
      hperm.mem_iff.mp hmem
    rw [mergeRowsWithMeta_map_key] at this
    exact hnot this

/-- Witness for C7's amended theorem at the `ghost` orphan. -/
theorem orphan_meta_amended_witness :
    "ghost" ∈ orphanMetaKeys [sampleRow] ghostMeta ∧
    (mergeRowsWithMeta [sampleRow] ghostMeta).map (fun r => r.key) =
      [sampleRow].map (fun r => r.key) ∧
    "ghost" ∉ (sortRowsByKey (mergeRowsWithMeta [sampleRow] ghostMeta)).map
      (fun r => r.key) :=
  orphan_meta_amended [sampleRow] ghostMeta "ghost" (by decide) (by decide)

/-! ## Helper lemmas: language-column allocation -/

theorem ensureLangStep_snd (columnMap : Option (List (String × ColumnMetadata)))
    (acc : List String × List (String × ColumnMetadata)) (lang : String) :
    ∃ v, (ensureLangStep columnMap acc lang).2 = aupsert acc.2 lang v := by
  unfold ensureLangStep
  split
  · exact ⟨_, rfl⟩
  · split
    · exact ⟨_, rfl⟩
    · exact ⟨_, rfl⟩

theorem ensureLang_lookup_none (columnMap : Option (List (String × ColumnMetadata)))
    (ls : List String) (acc : List String × List (String × ColumnMetadata)) (x : String)
    (hx : x ∉ ls) (hacc : alookup acc.2 x = none) :
    alookup (ls.foldl (ensureLangStep columnMap) acc).2 x = none := by
  induction ls generalizing acc with
  | nil => exact hacc
  | cons l rest ih =>
    rw [List.foldl_cons]
    refine ih _ (fun hc => hx (List.mem_cons_of_mem _ hc)) ?_
    obtain ⟨v, hv⟩ := ensureLangStep_snd columnMap acc l
    rw [hv, alookup_aupsert_of_ne _ _
      (fun hc : x = l => hx (hc ▸ List.mem_cons_self _ _))]
    exact hacc

theorem xlsxLang_lookup_none (ls : List String)
    (acc : List String × List (String × ColumnMetadata)) (x : String)
    (hx : x ∉ ls) (hacc : alookup acc.2 x = none) :
    alookup (ls.foldl xlsxLangStep acc).2 x = none := by
  induction ls generalizing acc with
  | nil => exact hacc
  | cons l rest ih =>
    rw [List.foldl_cons]
    refine ih _ (fun hc => hx (List.mem_cons_of_mem _ hc)) ?_
    rw [xlsxLangStep]
    split
    · exact hacc
    · rw [alookup_aupsert_of_ne _ _
        (fun hc : x = l => hx (hc ▸ List.mem_cons_self _ _))]
      exact hacc

/-! ## Claim C5: allocating a column for a new language -/

/-- C5.  For a language code `c` that is newly introduced at runtime — not
among the previously serialized languages, absent from the stored column
map, and matching no existing header by the `[c]` pattern — the CSV
serializer's `ensureLanguageColumns` allocates exactly one new column
appended after the last existing column, labelled
`getLanguageHeaderLabel c` (derived from the code), resolves `c` to that
final index, and leaves every previously resolved column's entry unchanged;
the spreadsheet writer's column-allocation loop does the same with the raw
code as label. -/
theorem new_language_appends_one_column
    (header ls : List String) (columnMap : Option (List (String × ColumnMetadata)))
    (c : String) (hc : c ∉ ls)
    (hmap : columnMap.bind (fun m => alookup m c) = none)
    (hpat : ∀ h ∈ (ensureLanguageColumns header ls columnMap).1, bracketTest c h = false) :
    ensureLanguageColumns header (ls ++ [c]) columnMap =
      ((ensureLanguageColumns header ls columnMap).1 ++ [getLanguageHeaderLabel c],
        (ensureLanguageColumns header ls columnMap).2 ++
          [(c, ⟨(ensureLanguageColumns header ls columnMap).1.length,
            getLanguageHeaderLabel c⟩)]) ∧
    (∀ l v, alookup (ensureLanguageColumns header ls columnMap).2 l = some v →
      alookup (ensureLanguageColumns header (ls ++ [c]) columnMap).2 l = some v) ∧
    (∀ m0 : List (String × ColumnMetadata), alookup m0 c = none →
      xlsxEnsureLanguageColumns header m0 (ls ++ [c]) =
        ((xlsxEnsureLanguageColumns header m0 ls).1 ++ [c],
          (xlsxEnsureLanguageColumns header m0 ls).2 ++
            [(c, ⟨(xlsxEnsureLanguageColumns header m0 ls).1.length, c⟩)])) := by
  have hr1 : alookup (ensureLanguageColumns header ls columnMap).2 c = none := by
    rw [ensureLanguageColumns]
    exact ensureLang_lookup_none columnMap ls (header, []) c hc rfl
  have hfold : ensureLanguageColumns header (ls ++ [c]) columnMap =
      ensureLangStep columnMap (ensureLanguageColumns header ls columnMap) c := by
    rw [ensureLanguageColumns, ensureLanguageColumns, List.foldl_append,
      List.foldl_cons, List.foldl_nil]
  have hpat' : (ensureLanguageColumns header ls columnMap).1.findIdx?
      (fun h => bracketTest c h) = none :=
    List.findIdx?_eq_none_iff.mpr hpat
  have hmain : ensureLanguageColumns header (ls ++ [c]) columnMap =
      ((ensureLanguageColumns header ls columnMap).1 ++ [getLanguageHeaderLabel c],
        (ensureLanguageColumns header ls columnMap).2 ++
          [(c, ⟨(ensureLanguageColumns header ls columnMap).1.length,
            getLanguageHeaderLabel c⟩)]) := by
    rw [hfold]
    unfold ensureLangStep
    rw [hmap]
    simp only [Option.none_bind]
    rw [hpat']
    rw [aupsert_of_none _ hr1]
    simp [hmap]
  refine ⟨hmain, ?_, ?_⟩
  · intro l v hl
    rw [hmain]
    exact alookup_append_left _ hl
  · intro m0 hm0
    have hr2 : alookup (xlsxEnsureLanguageColumns header m0 ls).2 c = none := by
      rw [xlsxEnsureLanguageColumns]
      exact xlsxLang_lookup_none ls (header, m0) c hc hm0
    have hfold2 : xlsxEnsureLanguageColumns header m0 (ls ++ [c]) =
        xlsxLangStep (xlsxEnsureLanguageColumns header m0 ls) c := by
      rw [xlsxEnsureLanguageColumns, xlsxEnsureLanguageColumns, List.foldl_append,
        List.foldl_cons, List.foldl_nil]
    rw [hfold2, xlsxLangStep, hr2]
    simp only [Option.isSome_none, Bool.false_eq_true, if_false]
    rw [aupsert_of_none _ hr2]

/-- Witness for C5: adding `es` to the sample project appends exactly the
column `Español [es]` at index 5 (CSV path) and `es` at index 5 (xlsx
path), leaving `en`/`de` untouched. -/
theorem new_language_appends_one_column_witness :
    ensureLanguageColumns c5Header (["en", "de"] ++ ["es"]) (some c5Map) =
      ((ensureLanguageColumns c5Header ["en", "de"] (some c5Map)).1 ++ ["Español [es]"],
        (ensureLanguageColumns c5Header ["en", "de"] (some c5Map)).2 ++
          [("es", ⟨(ensureLanguageColumns c5Header ["en", "de"] (some c5Map)).1.length,
            "Español [es]"⟩)]) ∧
    alookup (ensureLanguageColumns c5Header (["en", "de"] ++ ["es"]) (some c5Map)).2 "de" =
      some ⟨4, "Deutsch [de]"⟩ :=
  ⟨by
      have h := (new_language_appends_one_column c5Header ["en", "de"] (some c5Map) "es"
        (by decide) (by decide) (by decide)).1
      simpa [getLanguageHeaderLabel] using h,
    by
      have h := (new_language_appends_one_column c5Header ["en", "de"] (some c5Map) "es"
        (by decide) (by decide) (by decide)).2.1 "de" ⟨4, "Deutsch [de]"⟩ (by decide)
      exact h⟩

/-! ## Helper lemmas: rename and row assignment -/

theorem perm_all_eq {α : Type} {l l' : List α} (h : List.Perm l l') (p : α → Bool) :
    l.all p = l'.all p := by
  have hiff : (l.all p = true) ↔ (l'.all p = true) := by
    simp only [List.all_eq_true]
    exact ⟨fun H x hx => H x (h.mem_iff.2 hx), fun H x hx => H x (h.mem_iff.1 hx)⟩
  cases hb : l.all p <;> cases hb' : l'.all p <;> simp_all

theorem filter_remove_values_perm (m : List (String × Nat)) (oldId : String) (r : Nat)
    (hkeys : (m.map (fun p => p.1)).Nodup) (hold : alookup m oldId = some r) :
    List.Perm ((m.filter (fun p => !(p.1 == oldId))).map (fun p => p.2) ++ [r])
      (m.map (fun p => p.2)) := by
  induction m with
  | nil => simp [alookup_nil] at hold
  | cons p rest ih =>
    have hnd : (p.1 :: rest.map (fun x => x.1)).Nodup := hkeys
    cases hp : p.1 == oldId
    · rw [alookup_cons, if_neg (by simp [hp])] at hold
      rw [List.filter_cons_of_pos (by simp [hp]), List.map_cons, List.map_cons,
        List.cons_append]
      exact List.Perm.cons p.2 (ih (List.nodup_cons.mp hnd).2 hold)
    · rw [alookup_cons, if_pos (by simp [hp])] at hold
      have hpr : p.2 = r := by simpa using hold
      have hpk : p.1 = oldId := by simpa using hp
      have hnotin : oldId ∉ rest.map (fun x => x.1) := hpk ▸ (List.nodup_cons.mp hnd).1
      have hfil : rest.filter (fun q => !(q.1 == oldId)) = rest := by
        apply List.filter_eq_self.mpr
        intro q hq
        have hqne : q.1 ≠ oldId := fun hc => hnotin (List.mem_map.mpr ⟨q, hq, hc⟩)
        simp [hqne]
      rw [List.filter_cons_of_neg (by simp [hp]), hfil, List.map_cons, hpr]
      exact List.perm_append_singleton r _

theorem rename_values_perm (m : List (String × Nat)) (oldId newId : String) (r : Nat)
    (hkeys : (m.map (fun p => p.1)).Nodup)
    (hold : alookup m oldId = some r) (hnew : alookup m newId = none) :
    List.Perm ((aremove (aupsert m newId r) oldId).map (fun p => p.2))
      (m.map (fun p => p.2)) := by
  have hneq : newId ≠ oldId := by
    intro hc
    rw [hc, hold] at hnew
    exact Option.noConfusion hnew
  rw [aupsert_of_none _ hnew, aremove, List.filter_append,
    show List.filter (fun p => !(p.1 == oldId)) [((newId, r) : String × Nat)] =
      [(newId, r)] by simp [hneq]]
  rw [List.map_append]
  exact filter_remove_values_perm m oldId r hkeys hold

theorem normalize_lookup (m : List (String × Nat)) (k : String) (v : Nat)
    (h : alookup m k = some v) :
    alookup (normalizeWorkbookRowMap m) k =
      some (if (m.map (fun q => q.2)).all (fun x => 2 ≤ x) then max 1 (v - 1) else v) := by
  cases m with
  | nil => simp [alookup_nil] at h
  | cons p rest =>
    rw [normalizeWorkbookRowMap]
    by_cases hall : ((p :: rest).map (fun q => q.2)).all (fun x => 2 ≤ x)
    · rw [if_pos hall, if_pos hall]
      have h2 := alookup_map_value (fun x => max 1 (x - 1)) (p :: rest) k
      rw [h] at h2
      simpa using h2
    · rw [if_neg hall, if_neg hall]
      exact h

theorem foldl_max_seed_le (vs : List Nat) (a : Nat) : a ≤ vs.foldl max a := by
  induction vs generalizing a with
  | nil => simp
  | cons b rest ih =>
    rw [List.foldl_cons]
    exact Nat.le_trans (Nat.le_max_left a b) (ih (max a b))

theorem foldl_max_le (vs : List Nat) (a x : Nat) (h : x = a ∨ x ∈ vs) :
    x ≤ vs.foldl max a := by
  induction vs generalizing a with
  | nil =>
    rcases h with rfl | h
    · simp
    · simp at h
  | cons b rest ih =>
    rw [List.foldl_cons]
    rcases h with rfl | h
    · exact Nat.le_trans (Nat.le_max_left x b) (foldl_max_seed_le rest (max x b))
    · rcases List.mem_cons.mp h with rfl | h
      · exact Nat.le_trans (Nat.le_max_right a x) (foldl_max_seed_le rest (max a x))
      · exact ih _ (Or.inr h)

theorem lookup_lt_initialNext (M : List (String × Nat)) (k : String) (v : Nat)
    (h : alookup M k = some v) : v < initialNextRowIndex M := by
  have hmem : (k, v) ∈ M := alookup_eq_some_mem h
  have hv : v ∈ M.map (fun p => p.2) := List.mem_map.mpr ⟨(k, v), hmem, rfl⟩
  rw [initialNextRowIndex]
  cases hM : M.map (fun p => p.2) with
  | nil => rw [hM] at hv; simp at hv
  | cons w ws =>
    rw [hM] at hv
    rcases List.mem_cons.mp hv with rfl | hv
    · exact Nat.lt_succ_of_le (foldl_max_le ws v v (Or.inl rfl))
    · exact Nat.lt_succ_of_le (foldl_max_le ws w v (Or.inr hv))

theorem rename_mem_key (rows : List LocalizationRow) (oldId newId : String)
    (h : oldId ∈ rows.map (fun row => row.key)) :
    newId ∈ (rows.map (fun row =>
      if row.key == oldId then applyRowUpdates row { key := some newId } else row)).map
      (fun row => row.key) := by
  rcases List.mem_map.mp h with ⟨row, hrow, hkey⟩
  refine List.mem_map.mpr
    ⟨(if row.key == oldId then applyRowUpdates row { key := some newId } else row),
      List.mem_map.mpr ⟨row, hrow, rfl⟩, ?_⟩
  rw [if_pos (by simp [hkey])]
  rfl

/-! ## Claim C6: a renamed record still saves to its original physical row -/

/-- C6.  When a record's identifier is renamed from `oldId` to a fresh
`newId` before a save (via `updateRow`), the spreadsheet writer assigns the
renamed record exactly the row index it would have used for `oldId` — the
physical row previously bound to `oldId` in the (normalized) row map — and
that index is strictly below the append counter's starting value, so the
record is never written to a newly appended row. -/
theorem rename_targets_original_row (st : ProjState) (oldId newId : String) (r : Nat)
    (hold : alookup st.workbookRowMap oldId = some r) (hr : r ≠ 0) (hne : newId ≠ "")
    (hnotin : alookup st.workbookRowMap newId = none)
    (hkeys : (st.workbookRowMap.map (fun p => p.1)).Nodup)
    (hmem : oldId ∈ st.rows.map (fun row => row.key)) :
    alookup (updateRow st oldId { key := some newId }).workbookRowMap newId = some r ∧
    alookup (assignRows
        (normalizeWorkbookRowMap (updateRow st oldId { key := some newId }).workbookRowMap)
        (updateRow st oldId { key := some newId }).rows) newId =
      alookup (assignRows (normalizeWorkbookRowMap st.workbookRowMap) st.rows) oldId ∧
    (∀ idx, alookup (assignRows
        (normalizeWorkbookRowMap (updateRow st oldId { key := some newId }).workbookRowMap)
        (updateRow st oldId { key := some newId }).rows) newId = some idx →
      idx < initialNextRowIndex
        (normalizeWorkbookRowMap (updateRow st oldId { key := some newId }).workbookRowMap)) := by
  have hneq : newId ≠ oldId := by
    intro hc
    rw [hc, hold] at hnotin
    exact Option.noConfusion hnotin
  have hm' : (updateRow st oldId { key := some newId }).workbookRowMap =
      aremove (aupsert st.workbookRowMap newId r) oldId := by
    simp only [updateRow]
    rw [hold]
    simp [hne, hr]
  have hrows' : (updateRow st oldId { key := some newId }).rows =
      st.rows.map (fun row =>
        if row.key == oldId then applyRowUpdates row { key := some newId } else row) := by
    simp only [updateRow]
  have hlook' : alookup (aremove (aupsert st.workbookRowMap newId r) oldId) newId = some r := by
    rw [alookup_aremove_of_ne _ hneq, alookup_aupsert_self]
  have hperm := rename_values_perm st.workbookRowMap oldId newId r hkeys hold hnotin
  have hflag : ((aremove (aupsert st.workbookRowMap newId r) oldId).map
      (fun q => q.2)).all (fun x => 2 ≤ x) =
      (st.workbookRowMap.map (fun q => q.2)).all (fun x => 2 ≤ x) :=
    perm_all_eq hperm _
  have hnormNew : alookup (normalizeWorkbookRowMap
      (aremove (aupsert st.workbookRowMap newId r) oldId)) newId =
      some (if (st.workbookRowMap.map (fun q => q.2)).all (fun x => 2 ≤ x) then
        max 1 (r - 1) else r) := by
    rw [normalize_lookup _ _ _ hlook', hflag]
  have hnormOld : alookup (normalizeWorkbookRowMap st.workbookRowMap) oldId =
      some (if (st.workbookRowMap.map (fun q => q.2)).all (fun x => 2 ≤ x) then
        max 1 (r - 1) else r) :=
    normalize_lookup _ _ _ hold
  refine ⟨by rw [hm']; exact hlook', ?_, ?_⟩
  · rw [hm', hrows']
    simp only [assignRows]
    rw [alookup_assignRowsAux _ _ hnormNew (rename_mem_key st.rows oldId newId hmem),
      alookup_assignRowsAux _ _ hnormOld hmem]
  · intro idx hidx
    rw [hm', hrows'] at hidx
    simp only [assignRows] at hidx
    rw [alookup_assignRowsAux _ _ hnormNew (rename_mem_key st.rows oldId newId hmem)] at hidx
    have hidx' : idx = (if (st.workbookRowMap.map (fun q => q.2)).all (fun x => 2 ≤ x) then
        max 1 (r - 1) else r) := (Option.some_inj.mp hidx).symm
    rw [hm', hidx']
    exact lookup_lt_initialNext _ newId _ hnormNew

/-- Witness for C6: renaming `ui:start` to `ui:begin` in the sample project
still saves to the row previously bound to `ui:start` (the normalized row
index 1), not an appended row. -/
theorem rename_targets_original_row_witness :
    alookup (updateRow sampleState "ui:start" { key := some "ui:begin" }).workbookRowMap
      "ui:begin" = some 2 ∧
    alookup (assignRows
        (normalizeWorkbookRowMap
          (updateRow sampleState "ui:start" { key := some "ui:begin" }).workbookRowMap)
        (updateRow sampleState "ui:start" { key := some "ui:begin" }).rows) "ui:begin" =
      alookup (assignRows (normalizeWorkbookRowMap sampleState.workbookRowMap)
        sampleState.rows) "ui:start" :=
  ⟨(rename_targets_original_row sampleState "ui:start" "ui:begin" 2 (by decide) (by decide)
      (by decide) (by decide) (by decide) (by decide)).1,
    (rename_targets_original_row sampleState "ui:start" "ui:begin" 2 (by decide) (by decide)
      (by decide) (by decide) (by decide) (by decide)).2.1⟩

/-! ## Helper lemmas: the quote-aware field splitter -/

theorem pcl_nil (inQ : Bool) (cur : List Char) : pclAux [] inQ cur = [csvTrim cur] := rfl

theorem pcl_comma (t cur : List Char) :
    pclAux (',' :: t) false cur = csvTrim cur :: pclAux t false [] := rfl

theorem pcl_quote_open (t cur : List Char) :
    pclAux ('"' :: t) false cur = pclAux t true cur := by
  cases t with
  | nil => rfl
  | cons c' t' =>
    rw [pclAux.eq_def]
    split <;> simp_all <;> simp_all [eq_comm]

theorem pcl_quote_double (t cur : List Char) :
    pclAux ('"' :: '"' :: t) true cur = pclAux t true (cur ++ ['"']) := rfl

theorem pcl_quote_close (t cur : List Char) (h : t.head? ≠ some '"') :
    pclAux ('"' :: t) true cur = pclAux t false cur := by
  cases t with
  | nil => rfl
  | cons c' t' =>
    rw [pclAux.eq_def]
    split <;> simp_all <;> simp_all [eq_comm]

theorem pcl_cons_other (c : Char) (t cur : List Char) (inQ : Bool)
    (h1 : c ≠ '"') (h2 : ¬(c = ',' ∧ inQ = false)) :
    pclAux (c :: t) inQ cur = pclAux t inQ (cur ++ [c]) := by
  rw [pclAux.eq_def]
  split <;> simp_all

/-! ## Helper lemmas: line splitting -/

theorem splitLines_nil : splitLines [] = [[]] := rfl

theorem splitLines_newline (rest : List Char) :
    splitLines ('\n' :: rest) = [] :: splitLines rest := rfl

theorem splitLines_other (c : Char) (rest : List Char) (h1 : c ≠ '\n') (h2 : c ≠ '\r') :
    splitLines (c :: rest) = (splitLines rest).modifyHead (fun l => c :: l) := by
  rw [splitLines.eq_def]
  split <;> simp_all

theorem splitLines_no_newline (l : List Char) (h1 : '\n' ∉ l) (h2 : '\r' ∉ l) :
    splitLines l = [l] := by
  induction l with
  | nil => rfl
  | cons c rest ih =>
    rw [splitLines_other c rest (fun hc => h1 (hc ▸ List.mem_cons_self c rest))
      (fun hc => h2 (hc ▸ List.mem_cons_self c rest))]
    rw [ih (fun hm => h1 (List.mem_cons_of_mem c hm))
      (fun hm => h2 (List.mem_cons_of_mem c hm))]
    rfl

theorem splitLines_append (l t : List Char) (h1 : '\n' ∉ l) (h2 : '\r' ∉ l) :
    splitLines (l ++ '\n' :: t) = l :: splitLines t := by
  induction l with
  | nil => rw [List.nil_append, splitLines_newline]
  | cons c rest ih =>
    rw [List.cons_append, splitLines_other c _ (fun hc => h1 (hc ▸ List.mem_cons_self c rest))
      (fun hc => h2 (hc ▸ List.mem_cons_self c rest))]
    rw [ih (fun hm => h1 (List.mem_cons_of_mem c hm))
      (fun hm => h2 (List.mem_cons_of_mem c hm))]
    rfl

/-! ## Helper lemmas: escaping -/

theorem escQuotes_quote (rest : List Char) :
    escQuotes ('"' :: rest) = '"' :: '"' :: escQuotes rest := by
  simp [escQuotes]

theorem escQuotes_other (c : Char) (rest : List Char) (h : c ≠ '"') :
    escQuotes (c :: rest) = c :: escQuotes rest := by
  simp [escQuotes, h]

theorem escQuotes_mem {c : Char} {cs : List Char} (h : c ∈ escQuotes cs) :
    c ∈ cs ∨ c = '"' := by
  induction cs with
  | nil => simp [escQuotes] at h
  | cons d rest ih =>
    by_cases hd : d = '"'
    · rw [hd, escQuotes_quote] at h
      rcases List.mem_cons.mp h with rfl | h
      · exact Or.inr rfl
      · rcases List.mem_cons.mp h with rfl | h
        · exact Or.inr rfl
        · rcases ih h with hm | he
          · exact Or.inl (List.mem_cons_of_mem _ hm)
          · exact Or.inr he
    · rw [escQuotes_other d rest hd] at h
      rcases List.mem_cons.mp h with rfl | h
      · exact Or.inl (List.mem_cons_self _ _)
      · rcases ih h with hm | he
        · exact Or.inl (List.mem_cons_of_mem _ hm)
        · exact Or.inr he

theorem escape_data_mem {c : Char} {f : String} (h : c ∈ (escapeCSVField f).data) :
    c ∈ f.data ∨ c = '"' := by
  unfold escapeCSVField at h
  split at h
  · simp at h
  · split at h
    · have h' : c ∈ ('"' :: escQuotes f.data ++ ['"']) := h
      rcases List.mem_cons.mp h' with rfl | h''
      · exact Or.inr rfl
      · rcases List.mem_append.mp h'' with h3 | h3
        · exact escQuotes_mem h3
        · simp at h3
          exact Or.inr h3
    · exact Or.inl h

theorem escape_eq_self (f : String) (hne : f ≠ "")
    (h : ∀ c ∈ f.data, c ≠ ',' ∧ c ≠ '"' ∧ c ≠ '\n') : escapeCSVField f = f := by
  unfold escapeCSVField
  have hany : f.data.any (fun c => c = ',' || c = '"' || c = '\n') = false := by
    rw [List.any_eq_false]
    intro c hc
    simp [(h c hc).1, (h c hc).2.1, (h c hc).2.2]
  rw [if_neg hne, if_neg (by simp [hany])]

/-! ## Helper lemmas: separator joining -/

theorem joinSep_single (sep c : List Char) : joinSep sep [c] = c := rfl

theorem joinSep_cons (sep : List Char) (c : List Char) (rest : List (List Char))
    (h : rest ≠ []) : joinSep sep (c :: rest) = c ++ sep ++ joinSep sep rest := by
  cases rest with
  | nil => exact absurd rfl h
  | cons d ds => rfl

theorem joinSep_mem {c : Char} (sep : List Char) (cells : List (List Char))
    (h : c ∈ joinSep sep cells) : (∃ cell ∈ cells, c ∈ cell) ∨ c ∈ sep := by
  induction cells with
  | nil => simp [joinSep] at h
  | cons d ds ih =>
    cases ds with
    | nil =>
      rw [joinSep_single] at h
      exact Or.inl ⟨d, List.mem_cons_self _ _, h⟩
    | cons e es =>
      rw [joinSep_cons _ _ _ (by simp)] at h
      rcases List.mem_append.mp h with h' | h'
      · rcases List.mem_append.mp h' with h'' | h''
        · exact Or.inl ⟨d, List.mem_cons_self _ _, h''⟩
        · exact Or.inr h''
      · rcases ih h' with ⟨cell, hcell, hc⟩ | hs
        · exact Or.inl ⟨cell, List.mem_cons_of_mem _ hcell, hc⟩
        · exact Or.inr hs

theorem joinSep_head? (sep : List Char) (c : List Char) (rest : List (List Char))
    (hc : c ≠ []) : (joinSep sep (c :: rest)).head? = c.head? := by
  cases rest with
  | nil => rfl
  | cons d ds =>
    rw [joinSep_cons _ _ _ (by simp)]
    cases c with
    | nil => exact absurd rfl hc
    | cons a as => rfl

theorem getLast?_append_right (l₁ l₂ : List Char) (h : l₂ ≠ []) :
    (l₁ ++ l₂).getLast? = l₂.getLast? := by
  induction l₁ with
  | nil => rfl
  | cons a as ih =>
    rw [List.cons_append, List.getLast?_cons, ih]
    cases l₂ with
    | nil => exact absurd rfl h
    | cons b bs =>
      cases hx : (as ++ b :: bs) with
      | nil => exact absurd hx (by simp)
      | cons y ys => simp [List.getLast?_cons, ← hx]

theorem joinSep_newline_lastP (lines : List (List Char)) (hne : lines ≠ [])
    (hlast : ∀ l ∈ lines, ∃ c, l.getLast? = some c ∧ c.isWhitespace = false) :
    ∃ c, (joinSep ['\n'] lines).getLast? = some c ∧ c.isWhitespace = false := by
  induction lines with
  | nil => exact absurd rfl hne
  | cons l rest ih =>
    cases rest with
    | nil =>
      rw [joinSep_single]
      exact hlast l (List.mem_cons_self _ _)
    | cons m ms =>
      obtain ⟨c, hc, hcw⟩ := ih (by simp) (fun x hx => hlast x (List.mem_cons_of_mem _ hx))
      have hjoin_ne : joinSep ['\n'] (m :: ms) ≠ [] := by
        intro hnil
        rw [hnil] at hc
        simp at hc
      rw [joinSep_cons _ _ _ (by simp), List.append_assoc,
        getLast?_append_right _ _ (by simp),
        getLast?_append_right _ _ hjoin_ne]
      exact ⟨c, hc, hcw⟩

theorem joinSep_comma_lastP (cells : List (List Char)) (h2 : 2 ≤ cells.length)
    (hcells : ∀ cell ∈ cells, ∀ c' ∈ cell.getLast?, c'.isWhitespace = false) :
    ∃ c, (joinSep [','] cells).getLast? = some c ∧ c.isWhitespace = false := by
  induction cells with
  | nil => simp at h2
  | cons d ds ih =>
    cases ds with
    | nil => simp at h2
    | cons e es =>
      cases es with
      | nil =>
        rw [joinSep_cons _ _ _ (by simp), joinSep_single]
        cases he : e.reverse with
        | nil =>
          have : e = [] := by simpa using congrArg List.reverse he
          rw [this, List.append_nil, getLast?_append_right _ _ (by simp)]
          exact ⟨',', rfl, rfl⟩
        | cons x xs =>
          have hene : e ≠ [] := by
            intro hc
            rw [hc] at he
            simp at he
          rw [List.append_assoc, getLast?_append_right _ _ (by simp [hene]),
            getLast?_append_right _ _ hene]
          have hx : e.getLast? = some x := by
            rw [← List.head?_reverse]
            rw [he]
            rfl
          exact ⟨x, hx, by
            have := hcells e (by simp) x
            simp [hx] at this
            exact this⟩
      | cons f fs =>
        obtain ⟨c, hc, hcw⟩ := ih (by simp) (fun x hx => hcells x (List.mem_cons_of_mem _ hx))
        have hjoin_ne : joinSep [','] (e :: f :: fs) ≠ [] := by
          intro hnil
          rw [hnil] at hc
          simp at hc
        rw [joinSep_cons _ _ _ (by simp), List.append_assoc,
          getLast?_append_right _ _ (by simp [hjoin_ne]),
          getLast?_append_right _ _ hjoin_ne]
        exact ⟨c, hc, hcw⟩

/-! ## Helper lemmas: trimming -/

theorem dropWhile_head_eq_self (p : Char → Bool) (l : List Char)
    (h : ∀ c ∈ l.head?, p c = false) : l.dropWhile p = l := by
  cases l with
  | nil => rfl
  | cons c rest =>
    rw [List.dropWhile_cons, if_neg (by simp [h c rfl])]

theorem csvTrim_eq_self (l : List Char)
    (h1 : ∀ c ∈ l.head?, c.isWhitespace = false)
    (h2 : ∀ c ∈ l.getLast?, c.isWhitespace = false) : csvTrim l = l := by
  unfold csvTrim
  rw [dropWhile_head_eq_self _ l h1]
  rw [dropWhile_head_eq_self _ l.reverse (by
    intro c hc
    rw [List.head?_reverse] at hc
    exact h2 c hc)]
  exact List.reverse_reverse l

theorem csvTrim_eq_nil_ws (l : List Char) (h : csvTrim l = []) :
    ∀ c ∈ l, c.isWhitespace = true := by
  unfold csvTrim at h
  have h' : (l.dropWhile Char.isWhitespace).reverse.dropWhile Char.isWhitespace = [] := by
    have := congrArg List.reverse h
    simpa using this
  have hdrop : ∀ c ∈ l.dropWhile Char.isWhitespace, c.isWhitespace = true := by
    intro c hc
    have := List.dropWhile_eq_nil_iff.mp h' c (by simpa using hc)
    simpa using this
  intro c hc
  rcases List.mem_append.mp (by
      rw [List.takeWhile_append_dropWhile (p := Char.isWhitespace)]
      exact hc : c ∈ l.takeWhile Char.isWhitespace ++ l.dropWhile Char.isWhitespace) with
    hm | hm
  · exact List.mem_takeWhile_imp hm
  · exact hdrop c hm

theorem csvTrim_ne_nil (l : List Char) (c : Char) (hc : c ∈ l)
    (hws : c.isWhitespace = false) : csvTrim l ≠ [] := by
  intro h
  have := csvTrim_eq_nil_ws l h c hc
  rw [hws] at this
  exact Bool.noConfusion this

/-! ## Helper lemmas: cell discipline -/

theorem cellOK_no_nl {f : String} (h : cellOK f = true) : '\n' ∉ f.data := by
  unfold cellOK at h
  simp only [Bool.and_eq_true, List.all_eq_true, Bool.not_eq_true'] at h
  intro hm
  have := h.1.1 '\n' hm
  simp at this

theorem cellOK_no_cr {f : String} (h : cellOK f = true) : '\r' ∉ f.data := by
  unfold cellOK at h
  simp only [Bool.and_eq_true, List.all_eq_true, Bool.not_eq_true'] at h
  intro hm
  have := h.1.1 '\r' hm
  simp at this

theorem cellOK_head {f : String} (h : cellOK f = true) :
    ∀ c ∈ f.data.head?, c.isWhitespace = false := by
  unfold cellOK at h
  simp only [Bool.and_eq_true] at h
  intro c hc
  have h2 := h.1.2
  rw [show f.data.head? = some c from hc] at h2
  simpa using h2

theorem cellOK_last {f : String} (h : cellOK f = true) :
    ∀ c ∈ f.data.getLast?, c.isWhitespace = false := by
  unfold cellOK at h
  simp only [Bool.and_eq_true] at h
  intro c hc
  have h2 := h.2
  rw [show f.data.getLast? = some c from hc] at h2
  simpa using h2

theorem cellOK_trim {f : String} (h : cellOK f = true) : csvTrim f.data = f.data :=
  csvTrim_eq_self f.data (cellOK_head h) (cellOK_last h)

theorem stripTrailingCR_eq_self (l : List Char) (h : '\r' ∉ l) :
    stripTrailingCR l = l := by
  unfold stripTrailingCR
  cases hl : l.getLast? with
  | none => rfl
  | some c =>
    show (if c = '\r' then l.dropLast else l) = l
    rw [if_neg]
    intro hc
    exact h (hc ▸ List.mem_of_getLast?_eq_some hl)

/-! ## Helper lemmas: field-level round trip -/

theorem pclAux_plain : ∀ (cs : List Char), '"' ∉ cs → ',' ∉ cs → ∀ (l cur : List Char),
    pclAux (cs ++ l) false cur = pclAux l false (cur ++ cs)
  | [], _, _, l, cur => by simp
  | c :: cs', hq, hcomma, l, cur => by
    rw [List.cons_append,
      pcl_cons_other c _ _ _ (fun hc => hq (hc ▸ List.mem_cons_self c cs'))
        (fun hc => hcomma (hc.1 ▸ List.mem_cons_self c cs')),
      pclAux_plain cs' (fun hm => hq (List.mem_cons_of_mem c hm))
        (fun hm => hcomma (List.mem_cons_of_mem c hm)) l (cur ++ [c]),
      List.append_assoc]
    rfl

theorem pclAux_quoted : ∀ (cs l cur : List Char), l.head? ≠ some '"' →
    pclAux (escQuotes cs ++ '"' :: l) true cur = pclAux l false (cur ++ cs)
  | [], l, cur, hl => by
    rw [show escQuotes [] = [] from rfl, List.nil_append, pcl_quote_close l cur hl,
      List.append_nil]
  | c :: cs', l, cur, hl => by
    by_cases hc : c = '"'
    · rw [hc, escQuotes_quote, List.cons_append, List.cons_append, pcl_quote_double,
        pclAux_quoted cs' l (cur ++ ['"']) hl, List.append_assoc]
      rfl
    · rw [escQuotes_other c cs' hc, List.cons_append,
        pcl_cons_other c _ _ _ hc (by simp),
        pclAux_quoted cs' l (cur ++ [c]) hl, List.append_assoc]
      rfl

theorem no_special_of_any_false {f : String}
    (hany : f.data.any (fun c => c = ',' || c = '"' || c = '\n') = false) :
    ',' ∉ f.data ∧ '"' ∉ f.data := by
  rw [List.any_eq_false] at hany
  constructor
  · intro hm
    have := hany ',' hm
    simp at this
  · intro hm
    have := hany '"' hm
    simp at this

theorem pcl_escaped_comma (f : String) (hok : cellOK f = true) (rest : List Char) :
    pclAux ((escapeCSVField f).data ++ ',' :: rest) false [] =
      f.data :: pclAux rest false [] := by
  unfold escapeCSVField
  by_cases hne : f = ""
  · rw [if_pos hne]
    rw [show ("" : String).data = [] from rfl, List.nil_append, pcl_comma]
    rw [show csvTrim [] = [] from rfl, hne]
  · rw [if_neg hne]
    by_cases hany : f.data.any (fun c => c = ',' || c = '"' || c = '\n') = true
    · rw [if_pos hany]
      show pclAux (('"' :: (escQuotes f.data ++ ['"'])) ++ ',' :: rest) false [] = _
      rw [List.cons_append, pcl_quote_open, List.append_assoc]
      rw [show ((['"'] : List Char) ++ ',' :: rest) = '"' :: ',' :: rest from rfl]
      rw [pclAux_quoted f.data (',' :: rest) [] (by simp)]
      rw [List.nil_append, pcl_comma, cellOK_trim hok]
    · rw [if_neg hany]
      obtain ⟨hcomma, hq⟩ := no_special_of_any_false (Bool.not_eq_true _ ▸ hany)
      rw [pclAux_plain f.data hq hcomma (',' :: rest) []]
      rw [List.nil_append, pcl_comma, cellOK_trim hok]

theorem pcl_escaped_last (f : String) (hok : cellOK f = true) :
    pclAux ((escapeCSVField f).data) false [] = [f.data] := by
  unfold escapeCSVField
  by_cases hne : f = ""
  · rw [if_pos hne]
    rw [show ("" : String).data = [] from rfl, pcl_nil]
    rw [show csvTrim [] = [] from rfl, hne]
  · rw [if_neg hne]
    by_cases hany : f.data.any (fun c => c = ',' || c = '"' || c = '\n') = true
    · rw [if_pos hany]
      show pclAux ('"' :: (escQuotes f.data ++ ['"'])) false [] = _
      rw [pcl_quote_open]
      rw [show ((escQuotes f.data ++ ['"']) : List Char) = escQuotes f.data ++ '"' :: []
        from rfl]
      rw [pclAux_quoted f.data [] [] (by simp)]
      rw [List.nil_append, pcl_nil, cellOK_trim hok]
    · rw [if_neg hany]
      obtain ⟨hcomma, hq⟩ := no_special_of_any_false (Bool.not_eq_true _ ▸ hany)
      have := pclAux_plain f.data hq hcomma [] []
      rw [List.append_nil, List.nil_append] at this
      rw [this, pcl_nil, cellOK_trim hok]

theorem pclAux_joined (fields : List String) (hok : ∀ f ∈ fields, cellOK f = true)
    (hne : fields ≠ []) :
    pclAux (joinSep [','] (fields.map fun f => (escapeCSVField f).data)) false [] =
      fields.map String.data := by
  induction fields with
  | nil => exact absurd rfl hne
  | cons f fs ih =>
    cases fs with
    | nil =>
      rw [List.map_cons, List.map_nil, joinSep_single,
        pcl_escaped_last f (hok f (List.mem_cons_self _ _))]
      rfl
    | cons g gs =>
      rw [List.map_cons, joinSep_cons _ _ _ (by simp), List.append_assoc]
      rw [show (([','] : List Char) ++
          joinSep [','] ((g :: gs).map fun f => (escapeCSVField f).data)) =
          ',' :: joinSep [','] ((g :: gs).map fun f => (escapeCSVField f).data) from rfl]
      rw [pcl_escaped_comma f (hok f (List.mem_cons_self _ _)) _]
      rw [ih (fun x hx => hok x (List.mem_cons_of_mem _ hx)) (by simp)]
      rfl

theorem parseCSVLine_escaped (fields : List String) (hok : ∀ f ∈ fields, cellOK f = true)
    (hne : fields ≠ []) :
    parseCSVLine (joinSep [','] (fields.map fun f => (escapeCSVField f).data)) = fields := by
  have hcr : '\r' ∉ joinSep [','] (fields.map fun f => (escapeCSVField f).data) := by
    intro hm
    rcases joinSep_mem _ _ hm with ⟨cell, hcell, hc⟩ | hs
    · rcases List.mem_map.mp hcell with ⟨f, hf, rfl⟩
      rcases escape_data_mem hc with hm' | he
      · exact cellOK_no_cr (hok f hf) hm'
      · exact absurd he (by decide)
    · simp at hs
  unfold parseCSVLine
  rw [stripTrailingCR_eq_self _ hcr, pclAux_joined fields hok hne, List.map_map]
  rw [show (String.mk ∘ String.data) = id from funext (fun s => rfl), List.map_id]

/-! ## Helper lemmas: `String.intercalate` underlying characters -/

theorem joinSep_cons_append (sepd x y : List Char) (rest : List (List Char)) :
    joinSep sepd ((x ++ y) :: rest) = x ++ joinSep sepd (y :: rest) := by
  cases rest with
  | nil => rw [joinSep_single, joinSep_single]
  | cons d ds =>
    rw [joinSep_cons sepd (x ++ y) (d :: ds) (by simp),
      joinSep_cons sepd y (d :: ds) (by simp)]
    simp [List.append_assoc]

theorem foldl_join (sepd accd : List Char) (as : List String) :
    as.foldl (fun d b => d ++ sepd ++ b.data) accd =
      joinSep sepd (accd :: as.map String.data) := by
  induction as generalizing accd with
  | nil => rfl
  | cons b bs ih =>
    rw [List.foldl_cons, ih, List.map_cons]
    rw [show (accd ++ sepd ++ b.data) = (accd ++ sepd) ++ b.data from rfl]
    rw [joinSep_cons_append sepd (accd ++ sepd) b.data (bs.map String.data)]
    rw [joinSep_cons sepd accd (b.data :: bs.map String.data) (by simp)]

theorem intercalate_go_data (sep acc : String) (l : List String) :
    (String.intercalate.go acc sep l).data =
      l.foldl (fun d b => d ++ sep.data ++ b.data) acc.data := by
  induction l generalizing acc with
  | nil => rfl
  | cons a as ih =>
    show (String.intercalate.go (acc ++ sep ++ a) sep as).data = _
    rw [ih (acc ++ sep ++ a), List.foldl_cons, String.data_append, String.data_append]

theorem data_intercalate (sep : String) (l : List String) :
    (String.intercalate sep l).data = joinSep sep.data (l.map String.data) := by
  cases l with
  | nil => rfl
  | cons a as =>
    show (String.intercalate.go a sep as).data = _
    rw [intercalate_go_data, foldl_join, List.map_cons]

theorem stripBom_cons_bom (rest : List Char) : stripBom ('﻿' :: rest) = rest := by
  simp [stripBom]

theorem stripBom_eq_self (l : List Char) (h : l.head? ≠ some '﻿') :
    stripBom l = l := by
  cases l with
  | nil => rfl
  | cons c rest =>
    rw [stripBom, if_neg]
    intro hc
    exact h (by rw [hc]; rfl)

theorem parseSourceCSV_data_congr (s₁ s₂ : String)
    (h : stripBom s₁.data = stripBom s₂.data) : parseSourceCSV s₁ = parseSourceCSV s₂ := by
  unfold parseSourceCSV
  rw [h]

/-! ## Claim C3: what the delimited-text decoder handles -/

/-- Counterexample for C3: on a source whose Desc cell carries a quoted
embedded newline (exactly the shape `escapeCSVField` emits for multi-line
text), the decoder — which splits physical lines before any quote
processing — returns a single row with Desc `line1` and an empty English
cell instead of Desc `line1\nline2` and English `hello`; embedded newlines
inside quoted fields are not handled. -/
theorem quoted_newline_not_parsed_cex :
    (parseSourceCSV csvWithEmbeddedNewline).toOption.map
      (fun p => p.rows.map (fun r => (r.description, (alookup r.translations "en").getD "?")))
      = some [("line1", "")] := by
  decide

/-- C3 as amended: within one physical line the decoder handles quoted
fields containing the delimiter and doubled-quote escapes (decoding is a
left inverse of `escapeCSVField` for newline-free trim-stable fields), and
it strips one leading byte-order mark before parsing; embedded newlines
inside quoted fields are outside this guarantee. -/
theorem delimited_decoding_amended (fields : List String) (t : String)
    (hne : fields ≠ []) (hok : ∀ f ∈ fields, cellOK f = true)
    (hbom : t.data.head? ≠ some '﻿') :
    parseCSVLine (joinSep [','] (fields.map fun f => (escapeCSVField f).data)) = fields ∧
    parseSourceCSV (String.mk ('﻿' :: t.data)) = parseSourceCSV t := by
  refine ⟨parseCSVLine_escaped fields hok hne, ?_⟩
  apply parseSourceCSV_data_congr
  show stripBom ('﻿' :: t.data) = stripBom t.data
  rw [stripBom_cons_bom, stripBom_eq_self t.data hbom]

/-- Witness for C3's amended theorem: fields with an embedded delimiter and
doubled quotes decode back exactly, and a BOM-prefixed source parses like
the bare source. -/
theorem delimited_decoding_amended_witness :
    parseCSVLine (joinSep [','] ((["a,b", "say \"hi\"", "plain"].map
      fun f => (escapeCSVField f).data))) = ["a,b", "say \"hi\"", "plain"] ∧
    parseSourceCSV (String.mk ('﻿' :: ("Key,English\nx,y" : String).data)) =
      parseSourceCSV "Key,English\nx,y" :=
  delimited_decoding_amended ["a,b", "say \"hi\"", "plain"] "Key,English\nx,y"
    (by decide) (by decide) (by decide)

/-! ## Helper lemmas: enumeration and indexed access -/

theorem le_fst_of_mem_enumFrom {α : Type} (l : List α) :
    ∀ (n : Nat) (p : Nat × α), p ∈ List.enumFrom n l → n ≤ p.1 := by
  induction l with
  | nil => intro n p hp; simp [List.enumFrom] at hp
  | cons a t ih =>
    intro n p hp
    rw [show List.enumFrom n (a :: t) = (n, a) :: List.enumFrom (n + 1) t from rfl] at hp
    rcases List.mem_cons.mp hp with rfl | hp
    · exact Nat.le_refl n
    · exact Nat.le_of_succ_le (ih (n + 1) p hp)

theorem snd_mem_of_mem_enumFrom {α : Type} (l : List α) :
    ∀ (n : Nat) (p : Nat × α), p ∈ List.enumFrom n l → p.2 ∈ l := by
  induction l with
  | nil => intro n p hp; simp [List.enumFrom] at hp
  | cons a t ih =>
    intro n p hp
    rw [show List.enumFrom n (a :: t) = (n, a) :: List.enumFrom (n + 1) t from rfl] at hp
    rcases List.mem_cons.mp hp with rfl | hp
    · exact List.mem_cons_self _ _
    · exact List.mem_cons_of_mem _ (ih (n + 1) p hp)

theorem getD_of_mem_enumFrom (l : List String) :
    ∀ (n : Nat) (p : Nat × String), p ∈ List.enumFrom n l → l.getD (p.1 - n) "" = p.2 := by
  induction l with
  | nil => intro n p hp; simp [List.enumFrom] at hp
  | cons a t ih =>
    intro n p hp
    rw [show List.enumFrom n (a :: t) = (n, a) :: List.enumFrom (n + 1) t from rfl] at hp
    rcases List.mem_cons.mp hp with rfl | hp
    · simp
    · have h1 : n + 1 ≤ p.1 := le_fst_of_mem_enumFrom t (n + 1) p hp
      have h2 := ih (n + 1) p hp
      rw [show p.1 - n = (p.1 - (n + 1)) + 1 from by omega]
      simpa using h2

theorem getD_append_len {α : Type} (pre l : List α) (j : Nat) (d : α) :
    (pre ++ l).getD (pre.length + j) d = l.getD j d := by
  induction pre with
  | nil => simp
  | cons a t ih =>
    have hidx : (a :: t).length + j = (t.length + j) + 1 := by simp; omega
    rw [List.cons_append, hidx]
    simpa using ih

theorem set_append_cons_len {α : Type} (pre : List α) (v x : α) (t : List α) :
    (pre ++ v :: t).set pre.length x = pre ++ x :: t := by
  induction pre with
  | nil => rfl
  | cons a p ih =>
    show a :: (p ++ v :: t).set p.length x = a :: (p ++ x :: t)
    rw [ih]

theorem enumFrom_map_snd {α β : Type} (f : α → β) (l : List α) :
    ∀ n : Nat, (List.enumFrom n l).map (fun p => f p.2) = l.map f := by
  induction l with
  | nil => intro n; rfl
  | cons a t ih =>
    intro n
    show f a :: (List.enumFrom (n + 1) t).map (fun p => f p.2) = f a :: t.map f
    rw [ih (n + 1)]

theorem findIdx_self_enum (hs : List String) :
    ∀ (n : Nat) (p : Nat × String), hs.Nodup → p ∈ List.enumFrom n hs →
    ∀ k : Nat, hs.findIdx? (fun x => x == p.2) k = some (p.1 - n + k) := by
  induction hs with
  | nil => intro n p _ hp; simp [List.enumFrom] at hp
  | cons h ht ih =>
    intro n p hnd hp k
    rw [show List.enumFrom n (h :: ht) = (n, h) :: List.enumFrom (n + 1) ht from rfl] at hp
    rcases List.mem_cons.mp hp with rfl | hp
    · simp [List.findIdx?_cons]
    · have hmem : p.2 ∈ ht := snd_mem_of_mem_enumFrom ht (n + 1) p hp
      have hne : (h == p.2) = false := by
        simp only [beq_eq_false_iff_ne]
        intro he
        exact (List.nodup_cons.mp hnd).1 (he ▸ hmem)
      have h1 : n + 1 ≤ p.1 := le_fst_of_mem_enumFrom ht (n + 1) p hp
      rw [List.findIdx?_cons]
      simp only [hne, Bool.false_eq_true, if_false]
      rw [ih (n + 1) p (List.nodup_cons.mp hnd).2 hp (k + 1)]
      congr 1
      omega

theorem filterMap_eq_map_forall {α β : Type} (g : α → Option β) (f : α → β) (l : List α)
    (h : ∀ a ∈ l, g a = some (f a)) : l.filterMap g = l.map f := by
  induction l with
  | nil => rfl
  | cons a t ih =>
    have ht := ih (fun x hx => h x (List.mem_cons_of_mem _ hx))
    simp [List.filterMap_cons, h a (List.mem_cons_self _ _), ht]

theorem alookup_append_singleton_none {α : Type} (m : List (String × α)) (k k' : String)
    (v : α) (h1 : alookup m k' = none) (h2 : k ≠ k') :
    alookup (m ++ [(k, v)]) k' = none := by
  rw [alookup_append_of_none _ h1, alookup_cons, if_neg (by simp [h2])]
  rfl

theorem alookup_zip_nodup (ks : List String) :
    ∀ (vs : List String), ks.Nodup →
    ∀ p ∈ ks.zip vs, alookup (ks.zip vs) p.1 = some p.2 := by
  induction ks with
  | nil => intro vs _ p hp; simp at hp
  | cons k kt ih =>
    intro vs hnd p hp
    cases vs with
    | nil => simp at hp
    | cons v vt =>
      rw [show (k :: kt).zip (v :: vt) = (k, v) :: kt.zip vt from rfl] at hp ⊢
      rcases List.mem_cons.mp hp with rfl | hp
      · rw [alookup_cons, if_pos (by simp)]
      · have hk : k ≠ p.1 := by
          intro he
          exact (List.nodup_cons.mp hnd).1 (he ▸ (List.of_mem_zip hp).1)
        rw [alookup_cons, if_neg (by simp [hk])]
        exact ih vt (List.nodup_cons.mp hnd).2 p hp

theorem bracket_mem : ∀ (l : List Char) (code : List Char),
    findBracketCode l = some code → '[' ∈ l := by
  intro l
  induction l with
  | nil => intro code h; simp [findBracketCode] at h
  | cons c rest ih =>
    intro code h
    by_cases hc : c = '['
    · exact hc ▸ List.mem_cons_self _ _
    · have heq : findBracketCode (c :: rest) =
          if c = '[' then
            (if (rest.takeWhile isWordChar) ≠ [] ∧
                (rest.drop (rest.takeWhile isWordChar).length).head? = some ']' then
              some (rest.takeWhile isWordChar)
            else findBracketCode rest)
          else findBracketCode rest := by
        rw [findBracketCode.eq_def]
      rw [heq, if_neg hc] at h
      exact List.mem_cons_of_mem _ (ih code h)

/-! ## Helper lemmas: escape output discipline -/

theorem data_ne_nil_of_ne_empty (f : String) (hne : f ≠ "") : f.data ≠ [] := by
  intro hd
  apply hne
  calc f = String.mk f.data := rfl
    _ = "" := by rw [hd]

theorem escape_head_nonws (f : String) (hok : cellOK f = true) (hne : f ≠ "") :
    ∃ c, (escapeCSVField f).data.head? = some c ∧ c.isWhitespace = false := by
  unfold escapeCSVField
  rw [if_neg hne]
  split
  · exact ⟨'"', rfl, by decide⟩
  · obtain ⟨c, hc⟩ : ∃ c, f.data.head? = some c := by
      cases hd : f.data with
      | nil => exact absurd hd (data_ne_nil_of_ne_empty f hne)
      | cons a t => exact ⟨a, by simp [hd]⟩
    exact ⟨c, hc, cellOK_head hok c hc⟩

theorem escape_last_nonws (f : String) (hok : cellOK f = true) :
    ∀ c ∈ (escapeCSVField f).data.getLast?, c.isWhitespace = false := by
  intro c hc
  unfold escapeCSVField at hc
  split at hc
  · simp at hc
  · split at hc
    · have hlast : ('"' :: escQuotes f.data ++ ['"']).getLast? = some '"' := by
        rw [show '"' :: escQuotes f.data ++ ['"'] = ('"' :: escQuotes f.data) ++ ['"'] from rfl,
          getLast?_append_right _ _ (by simp)]
        rfl
      rw [show (String.mk ('"' :: escQuotes f.data ++ ['"'])).data =
          '"' :: escQuotes f.data ++ ['"'] from rfl, hlast] at hc
      have hcq : '"' = c := by simpa using hc
      rw [← hcq]
      decide
    · exact cellOK_last hok c hc

theorem csvTrim_ne_nil_of_head (l : List Char) (c : Char) (hc : l.head? = some c)
    (hws : c.isWhitespace = false) : csvTrim l ≠ [] :=
  csvTrim_ne_nil l c (List.mem_of_mem_head? hc) hws

theorem splitLines_joinSep (lines : List (List Char)) (hne : lines ≠ [])
    (h : ∀ l ∈ lines, '\n' ∉ l ∧ '\r' ∉ l) :
    splitLines (joinSep ['\n'] lines) = lines := by
  induction lines with
  | nil => exact absurd rfl hne
  | cons l rest ih =>
    cases rest with
    | nil =>
      rw [joinSep_single]
      exact splitLines_no_newline l (h l (List.mem_cons_self _ _)).1
        (h l (List.mem_cons_self _ _)).2
    | cons m ms =>
      rw [joinSep_cons _ _ _ (by simp), List.append_assoc,
        show (['\n'] ++ joinSep ['\n'] (m :: ms)) = '\n' :: joinSep ['\n'] (m :: ms) from rfl,
        splitLines_append l _ (h l (List.mem_cons_self _ _)).1
          (h l (List.mem_cons_self _ _)).2,
        ih (by simp) (fun x hx => h x (List.mem_cons_of_mem _ hx))]

/-! ## Helper lemmas: header and row discipline -/

theorem headerOK_cellOK {h : String} (hh : headerOK h = true) : cellOK h = true := by
  unfold headerOK at hh
  simp only [Bool.and_eq_true] at hh
  exact hh.1.1

theorem headerOK_ne_empty {h : String} (hh : headerOK h = true) : h ≠ "" := by
  unfold headerOK at hh
  simp only [Bool.and_eq_true, Bool.not_eq_true'] at hh
  intro he
  rw [he] at hh
  simp at hh

theorem headerOK_escape {h : String} (hh : headerOK h = true) : escapeCSVField h = h := by
  have hcell := headerOK_cellOK hh
  apply escape_eq_self h (headerOK_ne_empty hh)
  intro c hc
  unfold headerOK at hh
  simp only [Bool.and_eq_true, List.all_eq_true] at hh
  have h1 := hh.1.2 c hc
  simp only [Bool.and_eq_true, Bool.not_eq_true', beq_eq_false_iff_ne] at h1
  exact ⟨h1.2, h1.1, fun he => cellOK_no_nl hcell (he ▸ hc)⟩

theorem wfRowOK_fields {L : Nat} {row : WFRow} (h : wfRowOK L row = true) :
    cellOK row.key = true ∧ cellOK row.rowType = true ∧ cellOK row.desc = true ∧
    cellOK row.en = true ∧ row.key ≠ "" ∧ row.rowType ≠ "" ∧ row.vals.length = L ∧
    ∀ v ∈ row.vals, cellOK v = true := by
  unfold wfRowOK at h
  simp only [Bool.and_eq_true, Bool.not_eq_true', beq_eq_false_iff_ne, beq_iff_eq,
    List.all_eq_true] at h
  tauto

/-! ## Helper lemmas: the language-column scan of the decoder -/

theorem langScan_fold (hs : List String) :
    ∀ (n : Nat) (acc : LangAcc), 4 ≤ n →
    (∀ h ∈ hs, (findBracketCode h.data).isSome = true) →
    (hs.map langCode).Nodup →
    (∀ h ∈ hs, alookup acc.languageColumnMap (langCode h) = none) →
    List.foldl (langScanStep 0 3 (some 2) (some 1)) acc (List.enumFrom n hs) =
      { languages := acc.languages ++ hs.map langCode
        languageColumnMap := acc.languageColumnMap ++
          (List.enumFrom n hs).map (fun p => (langCode p.2, (⟨p.1, p.2⟩ : ColumnMetadata)))
        languageIndices := acc.languageIndices ++
          (List.enumFrom n hs).map (fun p => (langCode p.2, p.1)) } := by
  induction hs with
  | nil =>
    intro n acc _ _ _ _
    simp [List.enumFrom]
  | cons h ht ih =>
    intro n acc hn hbr hnd hfresh
    rw [show List.enumFrom n (h :: ht) = (n, h) :: List.enumFrom (n + 1) ht from rfl,
      List.foldl_cons]
    obtain ⟨code, hcode⟩ : ∃ code, findBracketCode h.data = some code := by
      have hb := hbr h (List.mem_cons_self _ _)
      cases hx : findBracketCode h.data with
      | none => rw [hx] at hb; simp at hb
      | some c => exact ⟨c, rfl⟩
    have hlc : String.mk (code.map Char.toLower) = langCode h := by
      unfold langCode
      rw [hcode]
      rfl
    have hstep : langScanStep 0 3 (some 2) (some 1) acc (n, h) =
        { languages := acc.languages ++ [langCode h]
          languageColumnMap := acc.languageColumnMap ++ [(langCode h, ⟨n, h⟩)]
          languageIndices := acc.languageIndices ++ [(langCode h, n)] } := by
      unfold langScanStep
      rw [if_neg (show ¬(n = 0 ∨ (some 2 : Option Nat) = some n ∨
          (some 1 : Option Nat) = some n ∨ n = 3) from by
        simp only [Option.some.injEq, not_or]
        omega)]
      rw [hcode]
      show ({ languages := acc.languages ++ [String.mk (code.map Char.toLower)]
              languageColumnMap := aupsert acc.languageColumnMap
                (String.mk (code.map Char.toLower)) ⟨n, h⟩
              languageIndices :=
                acc.languageIndices ++ [(String.mk (code.map Char.toLower), n)] } :
          LangAcc) = _
      rw [hlc, aupsert_of_none _ (hfresh h (List.mem_cons_self _ _))]
    rw [hstep]
    have hnd' : (ht.map langCode).Nodup := (List.nodup_cons.mp hnd).2
    have hfresh' : ∀ x ∈ ht,
        alookup (acc.languageColumnMap ++ [(langCode h, (⟨n, h⟩ : ColumnMetadata))])
          (langCode x) = none := by
      intro x hx
      refine alookup_append_singleton_none _ _ _ _
        (hfresh x (List.mem_cons_of_mem _ hx)) ?_
      intro he
      exact (List.nodup_cons.mp hnd).1 (he ▸ List.mem_map_of_mem langCode hx)
    rw [ih (n + 1) _ (by omega) (fun x hx => hbr x (List.mem_cons_of_mem _ hx)) hnd' hfresh']
    simp [List.append_assoc]

/-! ## Helper lemmas: the per-row translations fold of the decoder -/

theorem aupsert_fold_enum (hs : List String) :
    ∀ (vals pre : List String) (m : List (String × String)),
    vals.length = hs.length →
    (hs.map langCode).Nodup →
    (∀ h ∈ hs, alookup m (langCode h) = none) →
    List.foldl (fun acc ci => aupsert acc ci.1 ((pre ++ vals).getD ci.2 ""))
        m ((List.enumFrom pre.length hs).map (fun p => (langCode p.2, p.1))) =
      m ++ (hs.map langCode).zip vals := by
  induction hs with
  | nil =>
    intro vals pre m hlen _ _
    cases vals with
    | nil => simp [List.enumFrom]
    | cons v vt => simp at hlen
  | cons h ht ih =>
    intro vals pre m hlen hnd hfresh
    cases vals with
    | nil => simp at hlen
    | cons v vt =>
      rw [show List.enumFrom pre.length (h :: ht) =
          (pre.length, h) :: List.enumFrom (pre.length + 1) ht from rfl,
        List.map_cons, List.foldl_cons]
      simp only []
      rw [show (pre ++ v :: vt).getD pre.length "" = v from by
          simpa using getD_append_len pre (v :: vt) 0 "",
        aupsert_of_none _ (hfresh h (List.mem_cons_self _ _))]
      rw [show pre ++ v :: vt = (pre ++ [v]) ++ vt from by simp,
        show pre.length + 1 = (pre ++ [v]).length from by simp]
      have hfresh' : ∀ x ∈ ht,
          alookup (m ++ [(langCode h, v)]) (langCode x) = none := by
        intro x hx
        refine alookup_append_singleton_none _ _ _ _
          (hfresh x (List.mem_cons_of_mem _ hx)) ?_
        intro he
        exact (List.nodup_cons.mp hnd).1 (he ▸ List.mem_map_of_mem langCode hx)
      rw [ih vt (pre ++ [v]) (m ++ [(langCode h, v)]) (by simpa using hlen)
        (List.nodup_cons.mp hnd).2 hfresh']
      simp [List.append_assoc]

/-! ## Helper lemmas: lookups into the enumerated language-column map -/

theorem alookup_enum_map (hs : List String) :
    ∀ (n : Nat) (p : Nat × String), (hs.map langCode).Nodup → p ∈ List.enumFrom n hs →
    alookup ((List.enumFrom n hs).map
        (fun q => (langCode q.2, (⟨q.1, q.2⟩ : ColumnMetadata)))) (langCode p.2) =
      some ⟨p.1, p.2⟩ := by
  induction hs with
  | nil => intro n p _ hp; simp [List.enumFrom] at hp
  | cons h ht ih =>
    intro n p hnd hp
    rw [show List.enumFrom n (h :: ht) = (n, h) :: List.enumFrom (n + 1) ht from rfl] at hp ⊢
    rcases List.mem_cons.mp hp with rfl | hp
    · rw [List.map_cons, alookup_cons, if_pos (by simp)]
    · have hx : p.2 ∈ ht := snd_mem_of_mem_enumFrom ht (n + 1) p hp
      have hne : langCode h ≠ langCode p.2 := by
        intro he
        exact (List.nodup_cons.mp hnd).1 (he ▸ List.mem_map_of_mem langCode hx)
      rw [List.map_cons, alookup_cons, if_neg (by simp [hne])]
      exact ih (n + 1) p (List.nodup_cons.mp hnd).2 hp

theorem alookup_langMapOf (hs : List String) (p : Nat × String)
    (hnd : (hs.map langCode).Nodup) (hen : "en" ∉ hs.map langCode)
    (hp : p ∈ List.enumFrom 4 hs) :
    alookup (langMapOf hs) (langCode p.2) = some ⟨p.1, p.2⟩ := by
  have hx : p.2 ∈ hs := snd_mem_of_mem_enumFrom hs 4 p hp
  have hne : ("en" : String) ≠ langCode p.2 := by
    intro he
    exact hen (he ▸ List.mem_map_of_mem langCode hx)
  unfold langMapOf
  rw [alookup_cons, if_neg (by simp [hne])]
  exact alookup_enum_map hs 4 p hnd hp

/-! ## Helper lemmas: the serializer row fold -/

theorem serializeRow_fold (cm : List (String × ColumnMetadata))
    (tr : List (String × String)) (hs : List String) :
    ∀ (vals front : List String),
    vals.length = hs.length →
    (∀ p ∈ List.enumFrom front.length hs, alookup cm (langCode p.2) = some ⟨p.1, p.2⟩) →
    (∀ p ∈ (hs.map langCode).zip vals, alookup tr p.1 = some p.2) →
    List.foldl
      (fun vs lang =>
        match alookup cm lang with
        | some col => vs.set col.index (escapeCSVField ((alookup tr lang).getD ""))
        | none => vs)
      (front ++ List.replicate hs.length "") (hs.map langCode) =
      front ++ vals.map escapeCSVField := by
  induction hs with
  | nil =>
    intro vals front hlen _ _
    cases vals with
    | nil => simp
    | cons v vt => simp at hlen
  | cons h ht ih =>
    intro vals front hlen hcm htr
    cases vals with
    | nil => simp at hlen
    | cons v vt =>
      rw [List.map_cons, List.foldl_cons]
      have hl : alookup cm (langCode h) = some ⟨front.length, h⟩ :=
        hcm (front.length, h) (by
          rw [show List.enumFrom front.length (h :: ht) =
            (front.length, h) :: List.enumFrom (front.length + 1) ht from rfl]
          exact List.mem_cons_self _ _)
      have htv : alookup tr (langCode h) = some v :=
        htr (langCode h, v) (by
          rw [show ((h :: ht).map langCode).zip (v :: vt) =
            (langCode h, v) :: (ht.map langCode).zip vt from rfl]
          exact List.mem_cons_self _ _)
      rw [show (match alookup cm (langCode h) with
            | some col =>
              (front ++ List.replicate (h :: ht).length "").set col.index
                (escapeCSVField ((alookup tr (langCode h)).getD ""))
            | none => front ++ List.replicate (h :: ht).length "") =
          front ++ escapeCSVField v :: List.replicate ht.length "" from by
        rw [hl, htv]
        show (front ++ "" :: List.replicate ht.length "").set front.length
            (escapeCSVField v) =
          front ++ escapeCSVField v :: List.replicate ht.length ""
        rw [set_append_cons_len]]
      rw [show front ++ escapeCSVField v :: List.replicate ht.length "" =
          (front ++ [escapeCSVField v]) ++ List.replicate ht.length "" from by simp]
      have hcm' : ∀ p ∈ List.enumFrom (front ++ [escapeCSVField v]).length ht,
          alookup cm (langCode p.2) = some ⟨p.1, p.2⟩ := by
        intro p hp
        refine hcm p ?_
        rw [show List.enumFrom front.length (h :: ht) =
          (front.length, h) :: List.enumFrom (front.length + 1) ht from rfl]
        refine List.mem_cons_of_mem _ ?_
        have : (front ++ [escapeCSVField v]).length = front.length + 1 := by simp
        rwa [this] at hp
      have htr' : ∀ p ∈ (ht.map langCode).zip vt, alookup tr p.1 = some p.2 := by
        intro p hp
        refine htr p ?_
        rw [show ((h :: ht).map langCode).zip (v :: vt) =
          (langCode h, v) :: (ht.map langCode).zip vt from rfl]
        exact List.mem_cons_of_mem _ hp
      rw [ih vt (front ++ [escapeCSVField v]) (by simpa using hlen) hcm' htr']
      simp

/-! ## Helper lemmas: the serializer language-column resolution fold -/

theorem ensureLang_fold (H : List String) (cm : List (String × ColumnMetadata)) :
    ∀ (out m : List (String × ColumnMetadata)),
    (∀ p ∈ out, alookup cm p.1 = some p.2 ∧
      H.findIdx? (fun x => x == p.2.header) = some p.2.index ∧
      H.getD p.2.index "" = p.2.header) →
    (out.map Prod.fst).Nodup →
    (∀ p ∈ out, alookup m p.1 = none) →
    List.foldl (ensureLangStep (some cm)) (H, m) (out.map Prod.fst) = (H, m ++ out) := by
  intro out
  induction out with
  | nil => intro m _ _ _; simp
  | cons p pt ih =>
    intro m hspec hnd hfresh
    rw [List.map_cons, List.foldl_cons]
    obtain ⟨hlk, hfi, hgd⟩ := hspec p (List.mem_cons_self _ _)
    have hstep : ensureLangStep (some cm) (H, m) p.1 = (H, m ++ [p]) := by
      unfold ensureLangStep
      have h1 : ((some cm).bind (fun m2 => alookup m2 p.1)).bind
          (fun q => (H, m).1.findIdx? (fun x => x == q.header)) = some p.2.index := by
        show (alookup cm p.1).bind (fun q => H.findIdx? (fun x => x == q.header)) =
          some p.2.index
        rw [hlk]
        show H.findIdx? (fun x => x == p.2.header) = some p.2.index
        exact hfi
      rw [h1]
      show (H, aupsert m p.1 ⟨p.2.index, H.getD p.2.index ""⟩) = (H, m ++ [p])
      rw [hgd, aupsert_of_none _ (hfresh p (List.mem_cons_self _ _))]
    rw [hstep]
    have hfresh' : ∀ q ∈ pt, alookup (m ++ [p]) q.1 = none := by
      intro q hq
      have hne : p.1 ≠ q.1 := by
        intro he
        exact (List.nodup_cons.mp hnd).1 (he ▸ List.mem_map_of_mem Prod.fst hq)
      exact alookup_append_singleton_none m p.1 q.1 p.2
        (hfresh q (List.mem_cons_of_mem _ hq)) hne
    rw [ih (m ++ [p]) (fun q hq => hspec q (List.mem_cons_of_mem _ hq))
      (List.nodup_cons.mp hnd).2 hfresh']
    simp

/-! ## Helper lemmas: the decoder row-map fold -/

theorem rowMap_fold (ki : Nat) (d? t? : Option Nat) (li : List (String × Nat))
    (hs : List String) (rows : List WFRow)
    (hparse : ∀ row ∈ rows, parseDataLine ki d? t? li (renderRow row) = some (rowOf hs row)) :
    ∀ (n : Nat) (m : List (String × Nat)),
    (rows.map (fun r => r.key)).Nodup →
    (∀ row ∈ rows, alookup m row.key = none) →
    List.foldl
      (fun m il =>
        match parseDataLine ki d? t? li il.2 with
        | some row => aupsert m row.key (il.1 + 1)
        | none => m)
      m (List.enumFrom n (rows.map renderRow)) =
      m ++ (List.enumFrom (n + 1) rows).map (fun p => (p.2.key, p.1)) := by
  induction rows with
  | nil => intro n m _ _; simp [List.enumFrom]
  | cons r rt ih =>
    intro n m hnd hfresh
    rw [show List.enumFrom n ((r :: rt).map renderRow) =
        (n, renderRow r) :: List.enumFrom (n + 1) (rt.map renderRow) from rfl,
      List.foldl_cons]
    rw [show (match parseDataLine ki d? t? li (n, renderRow r).2 with
          | some row => aupsert m row.key ((n, renderRow r).1 + 1)
          | none => m) = m ++ [(r.key, n + 1)] from by
      show (match parseDataLine ki d? t? li (renderRow r) with
        | some row => aupsert m row.key (n + 1)
        | none => m) = m ++ [(r.key, n + 1)]
      rw [hparse r (List.mem_cons_self _ _)]
      show aupsert m r.key (n + 1) = m ++ [(r.key, n + 1)]
      rw [aupsert_of_none _ (hfresh r (List.mem_cons_self _ _))]]
    have hfresh' : ∀ row ∈ rt, alookup (m ++ [(r.key, n + 1)]) row.key = none := by
      intro row hrow
      have hne : r.key ≠ row.key := by
        intro he
        have hmm : row.key ∈ rt.map (fun r => r.key) :=
          List.mem_map_of_mem (fun r => r.key) hrow
        rw [← he] at hmm
        exact (List.nodup_cons.mp hnd).1 hmm
      exact alookup_append_singleton_none m r.key row.key (n + 1)
        (hfresh row (List.mem_cons_of_mem _ hrow)) hne
    rw [ih (fun row hrow => hparse row (List.mem_cons_of_mem _ hrow)) (n + 1)
      (m ++ [(r.key, n + 1)]) (List.nodup_cons.mp hnd).2 hfresh']
    rw [show List.enumFrom (n + 1) (r :: rt) =
      (n + 1, r) :: List.enumFrom (n + 2) rt from rfl]
    simp [List.append_assoc]

/-! ## Helper lemmas: decoding one rendered data row -/

theorem parseDataLine_renderRow (hs : List String) (row : WFRow)
    (hrow : wfRowOK hs.length row = true)
    (hnd : (hs.map langCode).Nodup) (hen : "en" ∉ hs.map langCode) :
    parseDataLine 0 (some 2) (some 1) (langIdxOf hs) (renderRow row) =
      some (rowOf hs row) := by
  obtain ⟨hck, hct, hcd, hce, hkne, htne, hlen, hcv⟩ := wfRowOK_fields hrow
  have hfok : ∀ f ∈ [row.key, row.rowType, row.desc, row.en] ++ row.vals,
      cellOK f = true := by
    intro f hf
    rcases List.mem_append.mp hf with hf | hf
    · fin_cases hf <;> assumption
    · exact hcv f hf
  have hvals : parseCSVLine (renderRow row) =
      [row.key, row.rowType, row.desc, row.en] ++ row.vals :=
    parseCSVLine_escaped _ hfok (by simp)
  obtain ⟨c0, hc0, hc0w⟩ := escape_head_nonws row.key hck hkne
  have hhead : (renderRow row).head? = some c0 := by
    have hne1 : (escapeCSVField row.key).data ≠ [] := by
      intro h0
      rw [h0] at hc0
      simp at hc0
    rw [show renderRow row = joinSep [','] ((escapeCSVField row.key).data ::
        ([row.rowType, row.desc, row.en] ++ row.vals).map (fun f => (escapeCSVField f).data))
      from rfl]
    rw [joinSep_head? _ _ _ hne1]
    exact hc0
  have htrim : csvTrim (renderRow row) ≠ [] := csvTrim_ne_nil_of_head _ c0 hhead hc0w
  have htr : List.foldl (fun m ci => aupsert m ci.1
        (([row.key, row.rowType, row.desc, row.en] ++ row.vals).getD ci.2 "")) []
      (langIdxOf hs) = ("en", row.en) :: (hs.map langCode).zip row.vals := by
    unfold langIdxOf
    rw [List.foldl_cons]
    rw [show aupsert ([] : List (String × String)) "en"
        (([row.key, row.rowType, row.desc, row.en] ++ row.vals).getD 3 "") =
        [("en", row.en)] from rfl]
    have hfold := aupsert_fold_enum hs row.vals [row.key, row.rowType, row.desc, row.en]
      [("en", row.en)] (by rw [hlen]) hnd
      (fun h hh => by
        rw [alookup_cons, if_neg (by
          simp only [beq_iff_eq]
          intro he
          exact hen (he ▸ List.mem_map_of_mem langCode hh))]
        rfl)
    simpa using hfold
  unfold parseDataLine
  rw [if_neg htrim]
  simp only [hvals]
  rw [if_neg (show ¬(([row.key, row.rowType, row.desc, row.en] ++ row.vals).length < 2)
    from by simp)]
  rw [if_neg (show ¬(([row.key, row.rowType, row.desc, row.en] ++ row.vals).getD 0 "" = "")
    from hkne)]
  rw [htr]
  rw [if_neg (show ¬(([row.key, row.rowType, row.desc, row.en] ++ row.vals).getD 1 "" = "")
    from htne)]
  rfl

/-! ## Decoding a rendered well-formed source -/

theorem parse_renderSource (s : WFSource) (hwf : wfSourceOK s) :
    parseSourceCSV (String.mk (renderSource s)) = Except.ok (expectedParse s) := by
  obtain ⟨hhdr, hnd, hen, hrows, hknd, hneRows⟩ := hwf
  have hHok : ∀ h ∈ ["Key", "Type", "Desc", "English"] ++ s.langHeaders,
      headerOK h = true := by
    intro h hm
    rcases List.mem_append.mp hm with hm | hm
    · fin_cases hm <;> decide
    · exact (hhdr h hm).1
  have hlchars : ∀ c ∈ joinSep [','] ((["Key", "Type", "Desc", "English"] ++
      s.langHeaders).map String.data), c ≠ '\n' ∧ c ≠ '\r' := by
    intro c hc
    rcases joinSep_mem _ _ hc with ⟨cell, hcell, hcc⟩ | hsep
    · rcases List.mem_map.mp hcell with ⟨h, hh, rfl⟩
      have hco := headerOK_cellOK (hHok h hh)
      exact ⟨fun he => cellOK_no_nl hco (he ▸ hcc), fun he => cellOK_no_cr hco (he ▸ hcc)⟩
    · have hcc : c = ',' := by simpa using hsep
      rw [hcc]
      exact ⟨by decide, by decide⟩
  have hrowchars : ∀ r ∈ s.rows, ∀ c ∈ renderRow r, c ≠ '\n' ∧ c ≠ '\r' := by
    intro r hr c hc
    obtain ⟨hck, hct, hcd, hce, _, _, _, hcv⟩ := wfRowOK_fields (hrows r hr)
    unfold renderRow at hc
    rcases joinSep_mem _ _ hc with ⟨cell, hcell, hcc⟩ | hsep
    · rcases List.mem_map.mp hcell with ⟨f, hf, rfl⟩
      have hfok : cellOK f = true := by
        rcases List.mem_append.mp hf with hf | hf
        · fin_cases hf <;> assumption
        · exact hcv f hf
      rcases escape_data_mem hcc with hm' | he
      · exact ⟨fun he2 => cellOK_no_nl hfok (he2 ▸ hm'),
          fun he2 => cellOK_no_cr hfok (he2 ▸ hm')⟩
      · rw [he]
        exact ⟨by decide, by decide⟩
    · have hcc : c = ',' := by simpa using hsep
      rw [hcc]
      exact ⟨by decide, by decide⟩
  have hlLast : ∃ c, (joinSep [','] ((["Key", "Type", "Desc", "English"] ++
      s.langHeaders).map String.data)).getLast? = some c ∧ c.isWhitespace = false := by
    refine joinSep_comma_lastP _ ?_ ?_
    · simp only [List.length_map, List.length_append, List.length_cons, List.length_nil]
      omega
    · intro cell hcell c hc
      rcases List.mem_map.mp hcell with ⟨h, hh, rfl⟩
      exact cellOK_last (headerOK_cellOK (hHok h hh)) c hc
  have hrowLast : ∀ r ∈ s.rows,
      ∃ c, (renderRow r).getLast? = some c ∧ c.isWhitespace = false := by
    intro r hr
    obtain ⟨hck, hct, hcd, hce, _, _, _, hcv⟩ := wfRowOK_fields (hrows r hr)
    unfold renderRow
    refine joinSep_comma_lastP _ ?_ ?_
    · simp only [List.length_map, List.length_append, List.length_cons, List.length_nil]
      omega
    · intro cell hcell c hc
      rcases List.mem_map.mp hcell with ⟨f, hf, rfl⟩
      have hfok : cellOK f = true := by
        rcases List.mem_append.mp hf with hf | hf
        · fin_cases hf <;> assumption
        · exact hcv f hf
      exact escape_last_nonws f hfok c hc
  have hheadK : (renderSource s).head? = some 'K' := by
    have h1 : (joinSep [','] ((["Key", "Type", "Desc", "English"] ++
        s.langHeaders).map String.data)).head? = some 'K' := by
      rw [show (["Key", "Type", "Desc", "English"] ++ s.langHeaders).map String.data =
          ("Key" : String).data :: (["Type", "Desc", "English"] ++
            s.langHeaders).map String.data from rfl]
      rw [joinSep_head? _ _ _ (by decide)]
      rfl
    rw [show renderSource s = joinSep ['\n']
        (joinSep [','] ((["Key", "Type", "Desc", "English"] ++
            s.langHeaders).map String.data) ::
          s.rows.map renderRow) from rfl]
    rw [joinSep_head? _ _ _ (by
      intro h0
      rw [h0] at h1
      simp at h1)]
    exact h1
  have hlastNW : ∃ c, (renderSource s).getLast? = some c ∧ c.isWhitespace = false := by
    rw [show renderSource s = joinSep ['\n']
        (joinSep [','] ((["Key", "Type", "Desc", "English"] ++
            s.langHeaders).map String.data) ::
          s.rows.map renderRow) from rfl]
    refine joinSep_newline_lastP _ (by simp) ?_
    intro l hl
    rcases List.mem_cons.mp hl with rfl | hl
    · exact hlLast
    · rcases List.mem_map.mp hl with ⟨r, hr, rfl⟩
      exact hrowLast r hr
  have hbom : stripBom (renderSource s) = renderSource s :=
    stripBom_eq_self _ (by rw [hheadK]; decide)
  have htrimid : csvTrim (renderSource s) = renderSource s := by
    apply csvTrim_eq_self
    · intro c hc
      rw [hheadK] at hc
      have hck : 'K' = c := by simpa using hc
      rw [← hck]
      decide
    · obtain ⟨c, hcl, hcw⟩ := hlastNW
      intro c' hc'
      rw [hcl] at hc'
      have hcc : c = c' := by simpa using hc'
      rw [← hcc]
      exact hcw
  have hsplitlines : splitLines (renderSource s) =
      joinSep [','] ((["Key", "Type", "Desc", "English"] ++
          s.langHeaders).map String.data) ::
        s.rows.map renderRow := by
    rw [show renderSource s = joinSep ['\n']
        (joinSep [','] ((["Key", "Type", "Desc", "English"] ++
            s.langHeaders).map String.data) ::
          s.rows.map renderRow) from rfl]
    apply splitLines_joinSep _ (by simp)
    intro l hl
    rcases List.mem_cons.mp hl with rfl | hl
    · exact ⟨fun hm => (hlchars '\n' hm).1 rfl, fun hm => (hlchars '\r' hm).2 rfl⟩
    · rcases List.mem_map.mp hl with ⟨r, hr, rfl⟩
      exact ⟨fun hm => (hrowchars r hr '\n' hm).1 rfl,
        fun hm => (hrowchars r hr '\r' hm).2 rfl⟩
  have hheader : parseCSVLine (joinSep [','] ((["Key", "Type", "Desc", "English"] ++
      s.langHeaders).map String.data)) =
      ["Key", "Type", "Desc", "English"] ++ s.langHeaders := by
    have hmap : (["Key", "Type", "Desc", "English"] ++ s.langHeaders).map String.data =
        (["Key", "Type", "Desc", "English"] ++ s.langHeaders).map
          (fun f => (escapeCSVField f).data) :=
      List.map_congr_left (fun h hh => by rw [headerOK_escape (hHok h hh)])
    rw [hmap, parseCSVLine_escaped _ (fun h hh => headerOK_cellOK (hHok h hh)) (by simp)]
  have hfold : List.foldl (langScanStep 0 3 (some 2) (some 1))
      { languages := ["en"]
        languageColumnMap := [("en", ⟨3, "English"⟩)]
        languageIndices := [("en", 3)] }
      (List.enumFrom 4 s.langHeaders) =
      { languages := "en" :: s.langHeaders.map langCode
        languageColumnMap := langMapOf s.langHeaders
        languageIndices := langIdxOf s.langHeaders } := by
    rw [langScan_fold s.langHeaders 4 _ (by omega) (fun h hh => (hhdr h hh).2) hnd
      (fun h hh => by
        rw [alookup_cons, if_neg (by
          simp only [beq_iff_eq]
          intro he
          exact hen (he ▸ List.mem_map_of_mem langCode hh))]
        rfl)]
    rfl
  have hparse : ∀ r ∈ s.rows, parseDataLine 0 (some 2) (some 1) (langIdxOf s.langHeaders)
      (renderRow r) = some (rowOf s.langHeaders r) :=
    fun r hr => parseDataLine_renderRow s.langHeaders r (hrows r hr) hnd hen
  have hrowsEq : (s.rows.map renderRow).filterMap
      (parseDataLine 0 (some 2) (some 1) (langIdxOf s.langHeaders)) =
      s.rows.map (rowOf s.langHeaders) := by
    rw [List.filterMap_map]
    exact filterMap_eq_map_forall _ _ _ (fun r hr => hparse r hr)
  have hrowmap : List.foldl
      (fun m il =>
        match parseDataLine 0 (some 2) (some 1) (langIdxOf s.langHeaders) il.2 with
        | some row => aupsert m row.key (il.1 + 1)
        | none => m)
      [] (List.enumFrom 1 (s.rows.map renderRow)) =
      (List.enumFrom 2 s.rows).map (fun p => (p.2.key, p.1)) := by
    have hr := rowMap_fold 0 (some 2) (some 1) (langIdxOf s.langHeaders) s.langHeaders
      s.rows hparse 1 [] hknd (fun r hr => rfl)
    simpa using hr
  obtain ⟨r0, rest, hr0⟩ : ∃ r0 rest, s.rows = r0 :: rest := by
    cases hx : s.rows with
    | nil => exact absurd hx hneRows
    | cons a t => exact ⟨a, t, rfl⟩
  have hsplit2 : splitLines (csvTrim (stripBom (String.mk (renderSource s)).data)) =
      joinSep [','] ((["Key", "Type", "Desc", "English"] ++
          s.langHeaders).map String.data) ::
        renderRow r0 :: rest.map renderRow := by
    rw [show (String.mk (renderSource s)).data = renderSource s from rfl, hbom, htrimid,
      hsplitlines, hr0, List.map_cons]
  have hrowsEq2 : (renderRow r0 :: rest.map renderRow).filterMap
      (parseDataLine 0 (some 2) (some 1) (langIdxOf s.langHeaders)) =
      s.rows.map (rowOf s.langHeaders) := by
    rw [show renderRow r0 :: rest.map renderRow = (r0 :: rest).map renderRow from rfl,
      ← hr0]
    exact hrowsEq
  have hrowmap2 : List.foldl
      (fun m il =>
        match parseDataLine 0 (some 2) (some 1) (langIdxOf s.langHeaders) il.2 with
        | some row => aupsert m row.key (il.1 + 1)
        | none => m)
      [] (List.enumFrom 1 (renderRow r0 :: rest.map renderRow)) =
      (List.enumFrom 2 s.rows).map (fun p => (p.2.key, p.1)) := by
    rw [show renderRow r0 :: rest.map renderRow = (r0 :: rest).map renderRow from rfl,
      ← hr0]
    exact hrowmap
  unfold parseSourceCSV
  rw [hsplit2]
  simp only []
  rw [hheader]
  rw [show (["Key", "Type", "Desc", "English"] ++ s.langHeaders).findIdx?
      (fun h => lowerStr h == "desc") = some 2 from rfl]
  rw [show (["Key", "Type", "Desc", "English"] ++ s.langHeaders).findIdx?
      (fun h => lowerStr h == "type") = some 1 from rfl]
  rw [show (["Key", "Type", "Desc", "English"] ++ s.langHeaders).findIdx?
      (fun h => lowerStr h == "key") = some 0 from rfl]
  rw [show (["Key", "Type", "Desc", "English"] ++ s.langHeaders).findIdx?
      (fun h => lowerStr h == "english") = some 3 from rfl]
  simp only []
  rw [show List.foldl (langScanStep 0 3 (some 2) (some 1))
      { languages := ["en"]
        languageColumnMap := [("en", ⟨3, (["Key", "Type", "Desc", "English"] ++
            s.langHeaders).getD 3 ""⟩)]
        languageIndices := [("en", 3)] }
      (["Key", "Type", "Desc", "English"] ++ s.langHeaders).enum =
      List.foldl (langScanStep 0 3 (some 2) (some 1))
      { languages := ["en"]
        languageColumnMap := [("en", ⟨3, "English"⟩)]
        languageIndices := [("en", 3)] }
      (List.enumFrom 4 s.langHeaders) from rfl]
  rw [hfold]
  simp only []
  rw [hrowsEq2, hrowmap2]
  rfl

/-! ## Serializing the parse result of a rendered source -/

theorem langMapOf_fst (hs : List String) :
    (langMapOf hs).map Prod.fst = "en" :: hs.map langCode := by
  unfold langMapOf
  rw [List.map_cons, List.map_map]
  rw [show (Prod.fst ∘ fun p : Nat × String =>
      (langCode p.2, (⟨p.1, p.2⟩ : ColumnMetadata))) =
    (fun p : Nat × String => langCode p.2) from rfl]
  rw [enumFrom_map_snd langCode hs 4]

theorem ensureLang_langMapOf (hs : List String)
    (hhdr : ∀ h ∈ hs, headerOK h = true ∧ (findBracketCode h.data).isSome = true)
    (hnd : (hs.map langCode).Nodup) (hen : "en" ∉ hs.map langCode) :
    ensureLanguageColumns (["Key", "Type", "Desc", "English"] ++ hs)
      ("en" :: hs.map langCode) (some (langMapOf hs)) =
      (["Key", "Type", "Desc", "English"] ++ hs, langMapOf hs) := by
  have hhsnd : hs.Nodup := List.Nodup.of_map langCode hnd
  have hspec : ∀ p ∈ langMapOf hs,
      alookup (langMapOf hs) p.1 = some p.2 ∧
      (["Key", "Type", "Desc", "English"] ++ hs).findIdx?
        (fun x => x == p.2.header) = some p.2.index ∧
      (["Key", "Type", "Desc", "English"] ++ hs).getD p.2.index "" = p.2.header := by
    intro p hp
    unfold langMapOf at hp
    rcases List.mem_cons.mp hp with rfl | hp
    · exact ⟨rfl, rfl, rfl⟩
    · rcases List.mem_map.mp hp with ⟨q, hq, rfl⟩
      have hq4 : 4 ≤ q.1 := le_fst_of_mem_enumFrom _ 4 q hq
      have hqm : q.2 ∈ hs := snd_mem_of_mem_enumFrom _ 4 q hq
      have hbr : '[' ∈ q.2.data := by
        obtain ⟨code, hcode⟩ : ∃ code, findBracketCode q.2.data = some code := by
          have hb := (hhdr q.2 hqm).2
          cases hx : findBracketCode q.2.data with
          | none => rw [hx] at hb; simp at hb
          | some c => exact ⟨c, rfl⟩
        exact bracket_mem _ code hcode
      have hKey : (("Key" : String) == q.2) = false := by
        simp only [beq_eq_false_iff_ne]
        intro he
        rw [← he] at hbr
        exact absurd hbr (by decide)
      have hType : (("Type" : String) == q.2) = false := by
        simp only [beq_eq_false_iff_ne]
        intro he
        rw [← he] at hbr
        exact absurd hbr (by decide)
      have hDesc : (("Desc" : String) == q.2) = false := by
        simp only [beq_eq_false_iff_ne]
        intro he
        rw [← he] at hbr
        exact absurd hbr (by decide)
      have hEng : (("English" : String) == q.2) = false := by
        simp only [beq_eq_false_iff_ne]
        intro he
        rw [← he] at hbr
        exact absurd hbr (by decide)
      refine ⟨alookup_langMapOf hs q hnd hen hq, ?_, ?_⟩
      · have hfi0 := findIdx_self_enum hs 4 q hhsnd hq 4
        rw [show q.1 - 4 + 4 = q.1 from by omega] at hfi0
        show List.findIdx? (fun x => x == q.2)
          ("Key" :: "Type" :: "Desc" :: "English" :: hs) 0 = some q.1
        rw [List.findIdx?_cons]
        simp only [hKey, Bool.false_eq_true, if_false]
        rw [List.findIdx?_cons]
        simp only [hType, Bool.false_eq_true, if_false]
        rw [List.findIdx?_cons]
        simp only [hDesc, Bool.false_eq_true, if_false]
        rw [List.findIdx?_cons]
        simp only [hEng, Bool.false_eq_true, if_false]
        exact hfi0
      · have hgd0 : hs.getD (q.1 - 4) "" = q.2 := getD_of_mem_enumFrom _ 4 q hq
        have h4 : (4 : Nat) + (q.1 - 4) = q.1 := by omega
        calc (["Key", "Type", "Desc", "English"] ++ hs).getD q.1 ""
            = (["Key", "Type", "Desc", "English"] ++ hs).getD (4 + (q.1 - 4)) "" := by
              rw [h4]
          _ = hs.getD (q.1 - 4) "" := by
              have hga := getD_append_len ["Key", "Type", "Desc", "English"] hs (q.1 - 4) ""
              simpa using hga
          _ = q.2 := hgd0
  have houtnd : ((langMapOf hs).map Prod.fst).Nodup := by
    rw [langMapOf_fst]
    exact List.nodup_cons.mpr ⟨hen, hnd⟩
  unfold ensureLanguageColumns
  rw [show ("en" :: hs.map langCode) = (langMapOf hs).map Prod.fst
    from (langMapOf_fst hs).symm]
  have hfold := ensureLang_fold (["Key", "Type", "Desc", "English"] ++ hs)
    (langMapOf hs) (langMapOf hs) [] hspec houtnd (fun p hp => rfl)
  simpa using hfold

theorem serializeRow_renderRow (hs : List String) (r : WFRow)
    (hrow : wfRowOK hs.length r = true)
    (hnd : (hs.map langCode).Nodup) (hen : "en" ∉ hs.map langCode) :
    serializeRow 0 ⟨1, "Type"⟩ ⟨2, "Desc"⟩ (langMapOf hs)
      ("en" :: hs.map langCode) (hs.length + 4) (rowOf hs r) =
    String.intercalate ","
      (([r.key, r.rowType, r.desc, r.en] ++ r.vals).map escapeCSVField) := by
  obtain ⟨hck, hct, hcd, hce, hkne, htne, hlen, hcv⟩ := wfRowOK_fields hrow
  have hfoldr : List.foldl
      (fun vs lang =>
        match alookup (langMapOf hs) lang with
        | some col => vs.set col.index
            (escapeCSVField ((alookup (rowOf hs r).translations lang).getD ""))
        | none => vs)
      ([escapeCSVField r.key, escapeCSVField r.rowType, escapeCSVField r.desc,
          escapeCSVField r.en] ++ List.replicate hs.length "")
      (hs.map langCode) =
      [escapeCSVField r.key, escapeCSVField r.rowType, escapeCSVField r.desc,
        escapeCSVField r.en] ++ r.vals.map escapeCSVField := by
    refine serializeRow_fold (langMapOf hs) (rowOf hs r).translations hs r.vals
      [escapeCSVField r.key, escapeCSVField r.rowType, escapeCSVField r.desc,
        escapeCSVField r.en] hlen ?_ ?_
    · intro p hp
      exact alookup_langMapOf hs p hnd hen hp
    · intro p hp
      have hp1 : p.1 ∈ hs.map langCode := (List.of_mem_zip hp).1
      show alookup (("en", r.en) :: (hs.map langCode).zip r.vals) p.1 = some p.2
      rw [alookup_cons, if_neg (by
        simp only [beq_iff_eq]
        intro he
        exact hen (he ▸ hp1))]
      exact alookup_zip_nodup (hs.map langCode) r.vals hnd p hp
  unfold serializeRow
  congr 1

theorem serialize_expectedParse (s : WFSource) (hwf : wfSourceOK s) :
    (serializeSourceCSV (optionsOf (expectedParse s))).content =
      String.mk (renderSource s) ∧
    (serializeSourceCSV (optionsOf (expectedParse s))).header =
      ["Key", "Type", "Desc", "English"] ++ s.langHeaders := by
  obtain ⟨hhdr, hnd, hen, hrows, hknd, hneRows⟩ := hwf
  have hml := ensureLang_langMapOf s.langHeaders hhdr hnd hen
  have hstr : ∀ (a b : String), a.data = b.data → a = b := fun a b h => by
    calc a = String.mk a.data := rfl
      _ = String.mk b.data := by rw [h]
      _ = b := rfl
  constructor
  · show String.intercalate "\n"
        (String.intercalate ","
            (ensureLanguageColumns (["Key", "Type", "Desc", "English"] ++ s.langHeaders)
              ("en" :: s.langHeaders.map langCode) (some (langMapOf s.langHeaders))).1 ::
          (s.rows.map (rowOf s.langHeaders)).map
            (serializeRow 0 ⟨1, "Type"⟩ ⟨2, "Desc"⟩
              (ensureLanguageColumns (["Key", "Type", "Desc", "English"] ++ s.langHeaders)
                ("en" :: s.langHeaders.map langCode) (some (langMapOf s.langHeaders))).2
              ("en" :: s.langHeaders.map langCode)
              (ensureLanguageColumns (["Key", "Type", "Desc", "English"] ++ s.langHeaders)
                ("en" :: s.langHeaders.map langCode)
                (some (langMapOf s.langHeaders))).1.length)) =
      String.mk (renderSource s)
    rw [hml]
    simp only []
    rw [show (["Key", "Type", "Desc", "English"] ++ s.langHeaders).length =
        s.langHeaders.length + 4 from by
      simp only [List.length_append, List.length_cons, List.length_nil]
      omega]
    rw [List.map_map]
    rw [show List.map
        (serializeRow 0 ⟨1, "Type"⟩ ⟨2, "Desc"⟩ (langMapOf s.langHeaders)
            ("en" :: s.langHeaders.map langCode) (s.langHeaders.length + 4) ∘
          rowOf s.langHeaders) s.rows =
      s.rows.map (fun r => String.intercalate ","
        (([r.key, r.rowType, r.desc, r.en] ++ r.vals).map escapeCSVField)) from
      List.map_congr_left (fun r hr =>
        serializeRow_renderRow s.langHeaders r (hrows r hr) hnd hen)]
    apply hstr
    rw [data_intercalate, List.map_cons, data_intercalate, List.map_map]
    rw [show List.map (String.data ∘ fun r => String.intercalate ","
        (([r.key, r.rowType, r.desc, r.en] ++ r.vals).map escapeCSVField)) s.rows =
      s.rows.map renderRow from
      List.map_congr_left (fun r hr => by
        show (String.intercalate ","
            (([r.key, r.rowType, r.desc, r.en] ++ r.vals).map escapeCSVField)).data =
          renderRow r
        rw [data_intercalate, List.map_map]
        rfl)]
    rfl
  · show (ensureLanguageColumns (["Key", "Type", "Desc", "English"] ++ s.langHeaders)
        ("en" :: s.langHeaders.map langCode) (some (langMapOf s.langHeaders))).1 =
      ["Key", "Type", "Desc", "English"] ++ s.langHeaders
    rw [hml]

/-! ## Claim C4: the decode/re-serialize round trip -/

/-- C4.  For every well-formed delimited-text source — reserved
`Key,Type,Desc,English` columns followed by bracket-coded language headers
with distinct short-codes, round-trip-safe cells, unique non-empty record
keys, non-empty Type cells and at least one data row — decoding with
`parseSourceCSV` and re-serializing the unedited result with
`serializeSourceCSV` yields byte-identical content: the header order and
every cell value come back untouched. -/
theorem csv_roundtrip (s : WFSource) (h : wfSourceOK s) :
    parseSourceCSV (String.mk (renderSource s)) = Except.ok (expectedParse s) ∧
    (serializeSourceCSV (optionsOf (expectedParse s))).content =
      String.mk (renderSource s) ∧
    (serializeSourceCSV (optionsOf (expectedParse s))).header =
      (expectedParse s).header :=
  ⟨parse_renderSource s h, (serialize_expectedParse s h).1, by
    rw [(serialize_expectedParse s h).2]
    rfl⟩

/-- Witness for C4 at Scenario A's source (one language column `Deutsch [de]`
and the record `ui:start`). -/
theorem csv_roundtrip_witness :
    wfSourceOK scenarioASource ∧
    (parseSourceCSV (String.mk (renderSource scenarioASource)) =
        Except.ok (expectedParse scenarioASource) ∧
      (serializeSourceCSV (optionsOf (expectedParse scenarioASource))).content =
        String.mk (renderSource scenarioASource) ∧
      (serializeSourceCSV (optionsOf (expectedParse scenarioASource))).header =
        (expectedParse scenarioASource).header) :=
  ⟨by decide, csv_roundtrip scenarioASource (by decide)⟩

end Locax